import Mathlib

/-!
# The Meraki syslog parser (`internal/syslogparser/meraki`)

A shallow embedding of `meraki.go`: the parser state, `Parse`, `Dump`, the header
assembly `parseHeader` and the three heuristic extractors `parseTimestamp`,
`parseHostname`, `parseAppName`, together with the parts of the Go standard library they
call (`regexp` for the two patterns used, `strings.Index`, `strings.Split`,
`strconv.ParseInt`, `time.Unix`).

Conventions.
* A Go `string` or `[]byte` is a list of bytes (`Bytes`).
* A Go call that may end in a run-time panic returns a `Result`; a Go pair
  `(value, error)` is a pair whose second component is an `Option Err` (`none` is `nil`).
* `time.Now()` is the parameter `now`.
* The priority and version scanners of package `syslogparser` are the parameter `sc`.
-/

namespace Meraki

/-! ## Bytes and strings -/

/-- A Go `string` or `[]byte`. -/
abbrev Bytes := List UInt8

/-- The bytes (UTF-8) of a string literal. -/
def str (s : String) : Bytes := s.toUTF8.data.toList

/-- Outcome of a Go call: it returns, or the goroutine panics. -/
inductive Result (α : Type) where
  | ret (a : α)
  | indexOutOfRange (i : Int) (len : Nat)
  | sliceOutOfRange (i : Int) (len : Nat)
  deriving Repr, DecidableEq

/-- Whether `t` begins `s` (Go `strings.HasPrefix`). -/
def startsWith : Bytes → Bytes → Bool
  | _, [] => true
  | [], _ :: _ => false
  | a :: s, b :: t => a == b && startsWith s t

/-- Offset of the first occurrence of `sub` at or after the head of `s`, counted from `pos`. -/
def indexFrom (sub : Bytes) : Nat → Bytes → Int
  | pos, [] => if sub.isEmpty then (pos : Int) else -1
  | pos, b :: bs => if startsWith (b :: bs) sub then (pos : Int) else indexFrom sub (pos + 1) bs

/-- Go `strings.Index(s, sub)`: the index of the first instance of `sub` in `s`, or -1. -/
def Index (s sub : Bytes) : Int := indexFrom sub 0 s

/-- Pieces of `s` between the occurrences of the one-byte separator `sep`; `cur` is the
piece being read, reversed. -/
def splitAux (sep : UInt8) : Bytes → Bytes → List Bytes
  | cur, [] => [cur.reverse]
  | cur, b :: bs => if b == sep then cur.reverse :: splitAux sep [] bs else splitAux sep (b :: cur) bs

/-- Go `strings.Split(s, sep)` for a separator of one byte (the call site passes `"."`). -/
def Split (s : Bytes) (sep : UInt8) : List Bytes := splitAux sep [] s

/-- Go `s[i:]` for `0 ≤ i ≤ len(s)`, a panic otherwise. -/
def sliceFrom (s : Bytes) (i : Int) : Result Bytes :=
  if 0 ≤ i ∧ i ≤ s.length then .ret (s.drop i.toNat) else .sliceOutOfRange i s.length

/-- Go `s[:i]` for `0 ≤ i ≤ len(s)`, a panic otherwise. -/
def sliceTo (s : Bytes) (i : Int) : Result Bytes :=
  if 0 ≤ i ∧ i ≤ s.length then .ret (s.take i.toNat) else .sliceOutOfRange i s.length

/-! ## Character classes and UTF-8 decoding -/

/-- `[0-9]`, which is what `\d` means in Go. -/
def isDigit (b : UInt8) : Bool := 48 ≤ b.toNat && b.toNat ≤ 57

/-- `[0-9a-f]`. -/
def isLowerHex (b : UInt8) : Bool := isDigit b || (97 ≤ b.toNat && b.toNat ≤ 102)

/-- `[0-9A-Za-z_]`, which is what `\w` means in Go. -/
def isWord (b : UInt8) : Bool :=
  isDigit b || (65 ≤ b.toNat && b.toNat ≤ 90) || (97 ≤ b.toNat && b.toNat ≤ 122) || b.toNat == 95

/-- A continuation byte `0x80..0xBF`. -/
def isCont (b : UInt8) : Bool := 128 ≤ b.toNat && b.toNat ≤ 191

/-- Length of the encoding that the first byte `x` (`0xC2 ≤ x ≤ 0xF4`) announces (the low
bits of `first[x]` in package `utf8`). -/
def runeSize (x : Nat) : Nat := if x < 0xE0 then 2 else if x < 0xF0 then 3 else 4

/-- Least second byte accepted after the first byte `x` (`acceptRanges` in package `utf8`). -/
def acceptLo (x : Nat) : Nat := if x = 0xE0 then 0xA0 else if x = 0xF0 then 0x90 else 0x80

/-- Greatest second byte accepted after the first byte `x`. -/
def acceptHi (x : Nat) : Nat := if x = 0xED then 0x9F else if x = 0xF4 then 0x8F else 0xBF

/-- Size in bytes of the rune at the head of a non-empty input, as `utf8.DecodeRuneInString`
computes it: the length of a well-formed encoding, and 1 for an ASCII byte and for a byte
that starts no well-formed encoding (decoded as `RuneError`). -/
def runeWidth : Bytes → Nat
  | [] => 0
  | s0 :: rest =>
    if s0.toNat < 0xC2 ∨ 0xF4 < s0.toNat then 1
    else if rest.length + 1 < runeSize s0.toNat then 1
    else match rest with
      | [] => 1
      | s1 :: rest1 =>
        if s1.toNat < acceptLo s0.toNat ∨ acceptHi s0.toNat < s1.toNat then 1
        else if runeSize s0.toNat ≤ 2 then 2
        else match rest1 with
          | [] => 1
          | s2 :: rest2 =>
            if !isCont s2 then 1
            else if runeSize s0.toNat ≤ 3 then 3
            else match rest2 with
              | [] => 1
              | s3 :: _ => if !isCont s3 then 1 else 4

/-- The input cut into runes, each kept as the bytes it spans; `skip` bytes still belong
to the rune being read. -/
def runesAux : Nat → Bytes → List Bytes
  | _, [] => []
  | 0, b :: bs => (b :: bs.take (runeWidth (b :: bs) - 1)) :: runesAux (runeWidth (b :: bs) - 1) bs
  | k + 1, _ :: bs => runesAux k bs

/-- The runes of a Go string, in order, as the `regexp` package steps through them. -/
def runes (s : Bytes) : List Bytes := runesAux 0 s

/-! ## The fragment of `regexp` used by the parser

Both patterns are a sequence of greedy bounded repetitions of a character class; the
group around the whole pattern does not affect `FindString`. Go's `regexp` returns the
leftmost match and, among the matches starting there, the one a backtracking search
that prefers more repetitions finds first. -/

/-- A character class of a pattern. -/
inductive Class where
  | digit
  | lowerHex
  | word
  | lit (b : UInt8)
  | anyNotNL
  deriving Repr, DecidableEq

/-- Whether a rune (given by its bytes) belongs to a class. -/
def Class.accepts : Class → Bytes → Bool
  | .digit, [b] => isDigit b
  | .lowerHex, [b] => isLowerHex b
  | .word, [b] => isWord b
  | .lit c, [b] => b == c
  | .anyNotNL, r => !(r == [10]) && !r.isEmpty
  | _, _ => false

/-- A greedy repetition `c{min,max}` (`max = none`: unbounded). -/
structure Item where
  cls : Class
  min : Nat
  max : Option Nat
  deriving Repr, DecidableEq

/-- Match `c{mn,mx}` greedily at the head of the runes and then the rest of the pattern
(`k`), giving up repetitions one at a time when the rest does not match. -/
def repeatGreedy (c : Class) (k : List Bytes → Option (List Bytes)) :
    Nat → Option Nat → List Bytes → Option (List Bytes)
  | 0, _, [] => k []
  | _ + 1, _, [] => none
  | mn, mx, t :: ts =>
    if c.accepts t && !(mx == some 0) then
      match repeatGreedy c k (mn - 1) (mx.map (· - 1)) ts with
      | some m => some (t :: m)
      | none => if mn = 0 then k (t :: ts) else none
    else if mn = 0 then k (t :: ts) else none

/-- Match a pattern at the head of the runes: the runes of the preferred match. -/
def matchItems : List Item → List Bytes → Option (List Bytes)
  | [] => fun _ => some []
  | it :: rest => repeatGreedy it.cls (matchItems rest) it.min it.max

/-- The leftmost match of a pattern in the runes. -/
def findAux (re : List Item) : List Bytes → Option (List Bytes)
  | [] => matchItems re []
  | t :: ts =>
    match matchItems re (t :: ts) with
    | some m => some m
    | none => findAux re ts

/-- Go `re.FindString(s)`: the text of the leftmost match, or `""` when there is none. -/
def FindString (re : List Item) (s : Bytes) : Bytes :=
  match findAux re (runes s) with
  | some m => m.flatten
  | none => []

/-! ## `strconv.ParseInt(s, 10, 64)` -/

/-- The two causes of a `*strconv.NumError`. -/
inductive NumErrKind where
  | ErrSyntax
  | ErrRange
  deriving Repr, DecidableEq

/-- An error returned by the scanners of package `syslogparser`: one of its
`*ParserError` values, or a `*strconv.NumError`. -/
inductive ScanErr where
  | parserError (ErrorString : String)
  | numError (Func : String) (Num : Bytes) (Err : NumErrKind)
  deriving Repr, DecidableEq

/-- A Go `error` value as `Parse` can meet it. `ErrHostnameNotFound` is a pointer
declared in this package, which package `syslogparser` cannot name, so no scanner
error is equal to it. -/
inductive Err where
  | scan (e : ScanErr)
  | ErrHostnameNotFound
  | numError (Func : String) (Num : Bytes) (Err : NumErrKind)
  deriving Repr, DecidableEq

/-- The digit loop of `strconv.ParseUint` for base 10 and 64 bits: `n` is the value read
so far (a `uint64`). -/
def parseUintLoop : Nat → Bytes → Nat × Option NumErrKind
  | n, [] => (n, none)
  | n, c :: cs =>
    if isDigit c then
      if n ≥ (2 ^ 64 - 1) / 10 + 1 then (2 ^ 64 - 1, some .ErrRange)
      else
        let n10 := n * 10 % 2 ^ 64
        let n1 := (n10 + (c.toNat - 48)) % 2 ^ 64
        if n1 < n10 ∨ n1 > 2 ^ 64 - 1 then (2 ^ 64 - 1, some .ErrRange)
        else parseUintLoop n1 cs
    else (0, some .ErrSyntax)

/-- Go `strconv.ParseUint(s, 10, 64)`. -/
def ParseUint (s : Bytes) : Nat × Option NumErrKind :=
  if s.isEmpty then (0, some .ErrSyntax) else parseUintLoop 0 s

/-- Go `strconv.ParseInt(s, 10, 64)`: an optional sign, then `ParseUint`; a value out of
range is reported with the nearest `int64`. -/
def ParseInt (s : Bytes) : Int × Option Err :=
  match s with
  | [] => (0, some (.numError "ParseInt" s .ErrSyntax))
  | c :: cs =>
    let neg := c == 45
    let t := if c == 43 ∨ c == 45 then cs else c :: cs
    match ParseUint t with
    | (_, some .ErrSyntax) => (0, some (.numError "ParseInt" s .ErrSyntax))
    | (un, _) =>
      if !neg ∧ un ≥ 2 ^ 63 then (2 ^ 63 - 1, some (.numError "ParseInt" s .ErrRange))
      else if neg ∧ un > 2 ^ 63 then (-(2 ^ 63), some (.numError "ParseInt" s .ErrRange))
      else (if neg then -(un : Int) else (un : Int), none)

/-! ## `time` -/

/-- A `*time.Location`. -/
inductive Location where
  | UTC
  | Local
  | named (name : String)
  deriving Repr, DecidableEq

/-- A `time.Time` without monotonic clock reading: `wall` holds the nanoseconds within
the second, `ext` the seconds since January 1 of year 1, `loc` the location pointer. The
zero `Time` is `⟨0, 0, none⟩`. -/
structure Time where
  wall : Nat := 0
  ext : Int := 0
  loc : Option Location := none
  deriving Repr, DecidableEq

/-- Two's-complement wrap-around of `int64` arithmetic. -/
def wrapInt64 (x : Int) : Int := (x + 2 ^ 63) % 2 ^ 64 - 2 ^ 63

/-- Seconds from January 1 of year 1 to January 1, 1970 (`unixToInternal`). -/
def unixToInternal : Int := 62135596800

/-- Go `time.unixTime(sec, nsec)`. -/
def unixTime (sec : Int) (nsec : Int) : Time :=
  { wall := nsec.toNat, ext := wrapInt64 (sec + unixToInternal), loc := some .Local }

/-- Go `time.Unix(sec, nsec)`: `nsec` outside `[0, 999999999]` is carried into `sec`. -/
def Unix (sec nsec : Int) : Time :=
  if nsec < 0 ∨ nsec ≥ 1000000000 then
    let n := Int.tdiv nsec 1000000000
    let sec1 := wrapInt64 (sec + n)
    let nsec1 := wrapInt64 (nsec - wrapInt64 (n * 1000000000))
    if nsec1 < 0 then unixTime (wrapInt64 (sec1 - 1)) (wrapInt64 (nsec1 + 1000000000))
    else unixTime sec1 nsec1
  else unixTime sec nsec

/-! ## The parser -/

/-- The field `F` of a `syslogparser.Priority`. -/
structure Facility where
  Value : Int := 0
  deriving Repr, DecidableEq

/-- The field `S` of a `syslogparser.Priority`. -/
structure Severity where
  Value : Int := 0
  deriving Repr, DecidableEq

/-- The type `syslogparser.Priority`, as `Dump` reads it. -/
structure Priority where
  P : Int := 0
  F : Facility := {}
  S : Severity := {}
  deriving Repr, DecidableEq

/-- The scanners `syslogparser.ParsePriority(buff, &cursor, l)` and
`syslogparser.ParseVersion(buff, &cursor, l)`: from the buffer, the cursor and the
length, the pair returned and the cursor they leave. -/
structure Scanner where
  ParsePriority : Bytes → Nat → Nat → (Priority × Option ScanErr) × Nat
  ParseVersion : Bytes → Nat → Nat → (Int × Option ScanErr) × Nat

/-- The record `header`. -/
structure header where
  priority : Priority := {}
  version : Int := 0
  timestamp : Time := {}
  hostname : Bytes := []
  appName : Bytes := []
  procId : Bytes := []
  msgId : Bytes := []
  deriving Repr, DecidableEq

/-- The record `Parser`. -/
structure Parser where
  buff : Bytes
  cursor : Nat := 0
  l : Nat
  header : header := {}
  structuredData : Bytes := []
  message : Bytes := []
  location : Option Location := none
  deriving Repr, DecidableEq

/-- Go `NewParser(buff)`. -/
def NewParser (buff : Bytes) : Parser :=
  { buff := buff, cursor := 0, l := buff.length, location := some .UTC }

/-- Go `p.Location(location)`. -/
def Parser.Location (p : Parser) (location : Option Location) : Parser :=
  { p with location := location }

/-- The pattern `(\d{10,}.\d{6,})` of `parseTimestamp`; its dot is not escaped. -/
def timestampRe : List Item :=
  [⟨.digit, 10, none⟩, ⟨.anyNotNL, 1, some 1⟩, ⟨.digit, 6, none⟩]

/-- The pattern
`([0-9a-f]{8}-[0-9a-f]{4}-[0-9a-f]{4}-[0-9a-f]{4}-[0-9a-f]{12}_\w+)` of `parseHostname`. -/
def hostnameRe : List Item :=
  [⟨.lowerHex, 8, some 8⟩, ⟨.lit 45, 1, some 1⟩, ⟨.lowerHex, 4, some 4⟩, ⟨.lit 45, 1, some 1⟩,
   ⟨.lowerHex, 4, some 4⟩, ⟨.lit 45, 1, some 1⟩, ⟨.lowerHex, 4, some 4⟩, ⟨.lit 45, 1, some 1⟩,
   ⟨.lowerHex, 12, some 12⟩, ⟨.lit 95, 1, some 1⟩, ⟨.word, 1, none⟩]

/-- Go `p.parseTimestamp()`. -/
def Parser.parseTimestamp (now : Time) (p : Parser) : Result (Time × Option Err) :=
  let ts : Time := {}
  let log := p.buff
  let tsStr := FindString timestampRe log
  if tsStr = [] then .ret (now, none)
  else
    let timeparts := Split tsStr 46
    match timeparts[0]? with
    | none => .indexOutOfRange 0 timeparts.length
    | some part0 =>
      match ParseInt part0 with
      | (_, some err) => .ret (ts, some err)
      | (sec, none) =>
        match timeparts[1]? with
        | none => .indexOutOfRange 1 timeparts.length
        | some part1 => .ret (Unix sec (ParseInt part1).1, none)

/-- Go `p.parseHostname()`. -/
def Parser.parseHostname (p : Parser) : Bytes × Option Err :=
  let log := p.buff
  let hostname := FindString hostnameRe log
  if hostname = [] then (hostname, some .ErrHostnameNotFound)
  else (hostname, none)

/-- Go `p.parseAppName(host)`. -/
def Parser.parseAppName (p : Parser) (host : Bytes) : Result (Bytes × Option Err) :=
  let log := p.buff
  let i := Index log host
  if i = -1 then .ret ([], none)
  else
    match sliceFrom log i with
    | .ret s =>
      let i := Index s [32]
      match sliceFrom s (i + 1) with
      | .ret s =>
        let i := Index s [32]
        match sliceTo s i with
        | .ret s => .ret (s, none)
        | .indexOutOfRange j n => .indexOutOfRange j n
        | .sliceOutOfRange j n => .sliceOutOfRange j n
      | .indexOutOfRange j n => .indexOutOfRange j n
      | .sliceOutOfRange j n => .sliceOutOfRange j n
    | .indexOutOfRange j n => .indexOutOfRange j n
    | .sliceOutOfRange j n => .sliceOutOfRange j n

/-- Go `p.parseHeader()`: the header and error returned, and the parser with the cursor
the call leaves. -/
def Parser.parseHeader (sc : Scanner) (now : Time) (p : Parser) :
    Result ((Meraki.header × Option Err) × Parser) :=
  let hdr : Meraki.header := {}
  match sc.ParsePriority p.buff p.cursor p.l with
  | ((_, some err), c) => .ret ((hdr, some (.scan err)), { p with cursor := c })
  | ((pri, none), c) =>
    let p := { p with cursor := c }
    let hdr := { hdr with priority := pri }
    match sc.ParseVersion p.buff p.cursor p.l with
    | ((_, some err), c) => .ret ((hdr, some (.scan err)), { p with cursor := c })
    | ((ver, none), c) =>
      let p := { p with cursor := c }
      let hdr := { hdr with version := ver }
      let p := { p with cursor := p.cursor + 1 }
      match p.parseTimestamp now with
      | .indexOutOfRange j n => .indexOutOfRange j n
      | .sliceOutOfRange j n => .sliceOutOfRange j n
      | .ret (_, some err) => .ret ((hdr, some err), p)
      | .ret (ts, none) =>
        let hdr := { hdr with timestamp := ts }
        match p.parseHostname with
        | (_, some err) => .ret ((hdr, some err), p)
        | (host, none) =>
          let hdr := { hdr with hostname := host }
          match p.parseAppName host with
          | .indexOutOfRange j n => .indexOutOfRange j n
          | .sliceOutOfRange j n => .sliceOutOfRange j n
          | .ret (_, some err) => .ret ((hdr, some err), p)
          | .ret (appName, none) =>
            let hdr := { hdr with appName := appName }
            .ret ((hdr, none), p)

/-- Go `p.Parse()`: the error returned and the parser after the call. -/
def Parser.Parse (sc : Scanner) (now : Time) (p : Parser) : Result (Option Err × Parser) :=
  match p.parseHeader sc now with
  | .indexOutOfRange j n => .indexOutOfRange j n
  | .sliceOutOfRange j n => .sliceOutOfRange j n
  | .ret ((hdr, err), p) =>
    if err ≠ none ∧ err ≠ some .ErrHostnameNotFound then .ret (err, p)
    else
      let p := { p with header := hdr }
      if p.cursor < p.l then
        match sliceFrom p.buff p.cursor with
        | .ret m => .ret (none, { p with message := m })
        | .indexOutOfRange j n => .indexOutOfRange j n
        | .sliceOutOfRange j n => .sliceOutOfRange j n
      else .ret (none, p)

/-- The map `syslogparser.LogParts` that `Dump` builds, one field for each key. -/
structure LogParts where
  priority : Int
  facility : Int
  severity : Int
  version : Int
  timestamp : Time
  hostname : Bytes
  app_name : Bytes
  proc_id : Bytes
  msg_id : Bytes
  structured_data : Bytes
  message : Bytes
  deriving Repr, DecidableEq

/-- Go `p.Dump()`. -/
def Parser.Dump (p : Parser) : LogParts :=
  { priority := p.header.priority.P
    facility := p.header.priority.F.Value
    severity := p.header.priority.S.Value
    version := p.header.version
    timestamp := p.header.timestamp
    hostname := p.header.hostname
    app_name := p.header.appName
    proc_id := p.header.procId
    msg_id := p.header.msgId
    structured_data := p.structuredData
    message := p.message }

/-! ## A reference scanner -/

/-- Value of a run of decimal digits read from the left, with the bytes after it. -/
def readDigits : Nat → Bytes → Nat × Bytes
  | n, [] => (n, [])
  | n, b :: bs => if isDigit b then readDigits (n * 10 + (b.toNat - 48)) bs else (n, b :: bs)

/-- Modelled from the spec: the priority and version scanners of package `syslogparser`,
whose source is not part of this development. The priority scanner reads the tag `<NNN>`
(one to three digits) at the cursor, decodes facility `NNN / 8` and severity `NNN % 8` and
leaves the cursor past `>`; the version scanner reads one digit at the cursor and leaves
the cursor past it. Used only to instantiate the scanner at concrete inputs. -/
def refScanner : Scanner where
  ParsePriority := fun buff cursor l =>
    match buff.drop cursor with
    | 60 :: rest =>
      let (n, after) := readDigits 0 rest
      let k := rest.length - after.length
      match after with
      | 62 :: _ =>
        if 1 ≤ k ∧ k ≤ 3 ∧ cursor + k + 2 ≤ l then
          (({ P := n, F := ⟨n / 8⟩, S := ⟨n % 8⟩ }, none), cursor + k + 2)
        else (({}, some (.parserError "bad priority")), cursor)
      | _ => (({}, some (.parserError "bad priority")), cursor)
    | _ => (({}, some (.parserError "bad priority")), cursor)
  ParseVersion := fun buff cursor l =>
    if cursor ≥ l then ((-1, some (.parserError "no version")), cursor)
    else
      match buff.drop cursor with
      | b :: _ =>
        if isDigit b then (((b.toNat - 48 : Nat), none), cursor + 1)
        else ((-1, some (.parserError "no version")), cursor)
      | [] => ((-1, some (.parserError "no version")), cursor)

/-! ## The shapes the specification names -/

/-- The shape of a hostname token as the specification words it: the UUID layout
8-4-4-4-12 of lowercase hexadecimal digits, an underscore, one or more word characters. -/
def HostnameShape (t : Bytes) : Prop :=
  ∃ a b c d e w : Bytes,
    t = a ++ 45 :: (b ++ 45 :: (c ++ 45 :: (d ++ 45 :: (e ++ 95 :: w)))) ∧
    a.length = 8 ∧ b.length = 4 ∧ c.length = 4 ∧ d.length = 4 ∧ e.length = 12 ∧
    (∀ x ∈ a, isLowerHex x = true) ∧ (∀ x ∈ b, isLowerHex x = true) ∧
    (∀ x ∈ c, isLowerHex x = true) ∧ (∀ x ∈ d, isLowerHex x = true) ∧
    (∀ x ∈ e, isLowerHex x = true) ∧ w ≠ [] ∧ ∀ x ∈ w, isWord x = true

/-- The shape of a timestamp token as the specification words it: ten or more digits, a
literal dot, six or more digits. -/
def TimestampShape (t : Bytes) : Prop :=
  ∃ S F : Bytes, t = S ++ 46 :: F ∧ 10 ≤ S.length ∧ (∀ x ∈ S, isDigit x = true) ∧
    6 ≤ F.length ∧ ∀ x ∈ F, isDigit x = true

/-- The substring `t` of `buff` after `pre` is the first one of the timestamp shape: none
starts before it. -/
def FirstTimestampToken (buff pre t : Bytes) : Prop :=
  (∃ post, buff = pre ++ t ++ post) ∧ TimestampShape t ∧
    ∀ pre' t' post', buff = pre' ++ t' ++ post' → TimestampShape t' → pre.length ≤ pre'.length

/-- The text has a run of `n` or more decimal digits. -/
def HasDigitRun (n : Nat) (s : Bytes) : Prop :=
  ∃ pre d post, s = pre ++ d ++ post ∧ n ≤ d.length ∧ ∀ x ∈ d, isDigit x = true

/-- Value of a string of decimal digits read after the value `n`. -/
def decimalFrom : Nat → Bytes → Nat
  | n, [] => n
  | n, c :: cs => decimalFrom (n * 10 + (c.toNat - 48)) cs

/-- The number a string of decimal digits writes. -/
def decimal (s : Bytes) : Nat := decimalFrom 0 s

/-! ## Concrete inputs -/

/-- A clock reading, for the concrete runs below. -/
def sampleNow : Time := Unix 1762214400 0

/-- The end-to-end scenario of the specification. -/
def scenarioInput : Bytes :=
  str "<134>1 1700000000.000001 3fa85f64-5717-4562-b3fc-2c963f66afa6_sensor01 status_report rest of payload"

/-- The hostname token of the scenario. -/
def scenarioHost : Bytes := str "3fa85f64-5717-4562-b3fc-2c963f66afa6_sensor01"

/-- The end-to-end scenario without hostname, cut after the version digit. -/
def plainText : Bytes := str "plain text without any uuid token"

/-- A message without hostname whose timestamp token has seconds beyond `int64`. -/
def overflowInput : Bytes := str "<134>1 99999999999999999999.123456 no host"

/-- A message with two numbers before its timestamp token. -/
def numbersThenTimestamp : Bytes := str "<134>1 id=12345678901 1234567 ts=1700000000.123456"

/-- A message with a run of seventeen digits and no dot. -/
def longDigitRun : Bytes := str "<134>1 seq=12345678901234567 up"

/-- A message with a run of seventeen digits before a timestamp token whose seconds are
beyond `int64`. -/
def longDigitRunThenOverflow : Bytes :=
  str "<134>1 seq=12345678901234567 ts=99999999999999999999.123456"

/-! ## Further definitions: the zero time, reachable states, more inputs -/

/-- Go `t.IsZero()`: the instant is January 1, year 1, 00:00:00 UTC. -/
def Time.IsZero (t : Time) : Bool := t.ext == 0 && t.wall == 0

/-- The states a parser can be in: built by `NewParser`, then any number of calls of
`Location` and of `Parse` that return. -/
inductive Reachable (sc : Scanner) : Parser → Prop where
  | new (buff : Bytes) : Reachable sc (NewParser buff)
  | location (p : Parser) (l : Option Location) : Reachable sc p → Reachable sc (p.Location l)
  | parse (p : Parser) (now : Time) (e : Option Err) (p' : Parser) :
      Reachable sc p → p.Parse sc now = .ret (e, p') → Reachable sc p'

/-- A message whose hostname token ends the buffer. -/
def hostAtEnd : Bytes :=
  str "<134>1 1700000000.123456 3fa85f64-5717-4562-b3fc-2c963f66afa6_sensor01"

/-- A message with one token after the hostname token and no space after it. -/
def hostThenOneToken : Bytes :=
  str "<134>1 1700000000.123456 3fa85f64-5717-4562-b3fc-2c963f66afa6_sensor01 status_report"

/-- A message with two numbers before a timestamp token whose fraction is beyond `int64`. -/
def numbersThenLongFraction : Bytes :=
  str "<134>1 id=12345678901 1234567 ts=1700000000.99999999999999999999"

/-- A message whose timestamp token has a fraction beyond `int64`. -/
def longFraction : Bytes := str "<134>1 1700000000.99999999999999999999 up"

/-- A message that ends with the version digit. -/
def versionAtEnd : Bytes := str "<134>1"

/-! ## The pattern matcher -/

theorem repeatGreedy_sound (c : Class) (k : List Bytes → Option (List Bytes)) :
    ∀ (ts : List Bytes) (mn : Nat) (mx : Option Nat) (m : List Bytes),
      repeatGreedy c k mn mx ts = some m →
      ∃ n m', mn ≤ n ∧ n ≤ ts.length ∧ (∀ t ∈ ts.take n, c.accepts t = true) ∧
        k (ts.drop n) = some m' ∧ m = ts.take n ++ m' ∧ (∀ M, mx = some M → n ≤ M) := by
  intro ts
  induction ts with
  | nil =>
    intro mn mx m h
    cases mn with
    | zero =>
      rw [repeatGreedy] at h
      exact ⟨0, m, le_refl _, le_refl _, by simp, by simpa using h, by simp, by simp⟩
    | succ n => rw [repeatGreedy] at h; cases h
  | cons t ts ih =>
    intro mn mx m h
    rw [repeatGreedy] at h
    by_cases hacc : (c.accepts t && !(mx == some 0)) = true
    · rw [if_pos hacc] at h
      cases hrec : repeatGreedy c k (mn - 1) (mx.map (· - 1)) ts with
      | some m1 =>
        rw [hrec] at h
        obtain ⟨n, m', h1, h2, h3, h4, h5, h6⟩ := ih _ _ _ hrec
        refine ⟨n + 1, m', by omega, by simp; omega, ?_, by simpa using h4, ?_, ?_⟩
        · intro x hx
          simp only [List.take_succ_cons, List.mem_cons] at hx
          rcases hx with rfl | hx
          · simp only [Bool.and_eq_true] at hacc; exact hacc.1
          · exact h3 x hx
        · simp only [Option.some.injEq] at h
          simp [← h, h5]
        · intro M hM
          subst hM
          have := h6 (M - 1) (by simp)
          simp only [Bool.and_eq_true, Bool.not_eq_true', beq_eq_false_iff_ne, ne_eq,
            Option.some.injEq] at hacc
          omega
      | none =>
        rw [hrec] at h
        by_cases h0 : mn = 0
        · simp only [h0, if_true] at h
          exact ⟨0, m, by omega, by simp, by simp, by simpa using h, by simp, by simp⟩
        · simp [h0] at h
    · rw [if_neg hacc] at h
      by_cases h0 : mn = 0
      · simp only [h0, if_true] at h
        exact ⟨0, m, by omega, by simp, by simp, by simpa using h, by simp, by simp⟩
      · simp [h0] at h

/-- A repetition with a fixed count is deterministic. -/
theorem repeatGreedy_fixed (c : Class) (k : List Bytes → Option (List Bytes)) :
    ∀ (n : Nat) (ts : List Bytes),
      repeatGreedy c k n (some n) ts =
        if n ≤ ts.length ∧ (ts.take n).all c.accepts = true then
          (k (ts.drop n)).map (fun m => ts.take n ++ m)
        else none := by
  intro n
  induction n with
  | zero =>
    intro ts
    cases ts with
    | nil => rw [repeatGreedy]; simp
    | cons t ts => rw [repeatGreedy]; simp
  | succ n ih =>
    intro ts
    cases ts with
    | nil => rw [repeatGreedy]; simp
    | cons t ts =>
      rw [repeatGreedy]
      by_cases hacc : c.accepts t = true
      · simp only [hacc, Bool.true_and, Nat.add_sub_cancel, Option.map_some']
        rw [ih ts]
        by_cases hcond : n ≤ ts.length ∧ (ts.take n).all c.accepts = true
        · rw [if_pos hcond]
          cases hk : k (ts.drop n) <;> simp [hk, hcond, hacc]
        · rw [if_neg hcond]
          have hcond' : ¬ (n ≤ ts.length ∧ ∀ x ∈ List.take n ts, c.accepts x = true) := by
            simpa using hcond
          simp [hacc, hcond']
      · simp [hacc]

/-- A final unbounded repetition takes the whole run of accepted runes. -/
theorem repeatGreedy_last (c : Class) :
    ∀ (ts : List Bytes) (mn : Nat),
      repeatGreedy c (fun _ => some []) mn none ts =
        if mn ≤ (ts.takeWhile c.accepts).length then some (ts.takeWhile c.accepts) else none := by
  intro ts
  induction ts with
  | nil =>
    intro mn
    cases mn <;> (rw [repeatGreedy]; simp)
  | cons t ts ih =>
    intro mn
    rw [repeatGreedy]
    by_cases hacc : c.accepts t = true
    · simp only [hacc, Bool.true_and, Option.map_none', List.takeWhile_cons, if_true]
      rw [ih]
      by_cases hle : mn - 1 ≤ (ts.takeWhile c.accepts).length
      · simp [hle]; omega
      · have h1 : ¬ mn = 0 := by omega
        have h2 : ¬ mn ≤ (List.takeWhile c.accepts ts).length + 1 := by omega
        simp [hle, h1, h2]
    · simp [hacc, List.takeWhile_cons]

/-! ## Runes -/

theorem runesAux_flatten : ∀ (s : Bytes) (k : Nat), (runesAux k s).flatten = s.drop k := by
  intro s
  induction s with
  | nil => intro k; simp [runesAux]
  | cons b bs ih =>
    intro k
    cases k with
    | zero =>
      rw [runesAux]
      simp [List.flatten, ih]
    | succ k => rw [runesAux]; simp [ih]

theorem runes_flatten (s : Bytes) : (runes s).flatten = s := by
  simp [runes, runesAux_flatten]

theorem runesAux_ne_nil : ∀ (s : Bytes) (k : Nat), ∀ t ∈ runesAux k s, t ≠ [] := by
  intro s
  induction s with
  | nil => intro k t ht; simp [runesAux] at ht
  | cons b bs ih =>
    intro k t ht
    cases k with
    | zero =>
      rw [runesAux] at ht
      rcases List.mem_cons.mp ht with rfl | h
      · simp
      · exact ih _ t h
    | succ k => rw [runesAux] at ht; exact ih _ t ht

theorem runeWidth_ascii (b : UInt8) (bs : Bytes) (h : b.toNat < 128) : runeWidth (b :: bs) = 1 := by
  have h1 : b.toNat < 0xC2 ∨ 0xF4 < b.toNat := Or.inl (by omega)
  simp only [runeWidth, h1, if_true]

theorem runesAux_ascii (b : UInt8) (bs : Bytes) (h : b.toNat < 128) :
    runesAux 0 (b :: bs) = [b] :: runesAux 0 bs := by
  rw [runesAux, runeWidth_ascii b bs h]
  simp

theorem acceptLo_ge (x : Nat) : 128 ≤ acceptLo x := by
  unfold acceptLo; split_ifs <;> omega

theorem isCont_ge (b : UInt8) (h : isCont b = true) : 128 ≤ b.toNat := by
  simp only [isCont, Bool.and_eq_true, decide_eq_true_eq] at h; exact h.1

theorem runeWidth_cases (b : UInt8) (bs : Bytes) :
    runeWidth (b :: bs) = 1 ∨
    (runeWidth (b :: bs) = 2 ∧ ∃ s1 r, bs = s1 :: r ∧ 128 ≤ s1.toNat) ∨
    (runeWidth (b :: bs) = 3 ∧ ∃ s1 s2 r, bs = s1 :: s2 :: r ∧ 128 ≤ s1.toNat ∧ 128 ≤ s2.toNat) ∨
    (runeWidth (b :: bs) = 4 ∧ ∃ s1 s2 s3 r, bs = s1 :: s2 :: s3 :: r ∧ 128 ≤ s1.toNat ∧
      128 ≤ s2.toNat ∧ 128 ≤ s3.toNat) := by
  have hlo := acceptLo_ge b.toNat
  rcases bs with _ | ⟨s1, _ | ⟨s2, _ | ⟨s3, r⟩⟩⟩
  · left; simp only [runeWidth]; split_ifs <;> rfl
  · simp only [runeWidth]
    split_ifs with h1 h2 h3 h4
    · simp
    · simp
    · simp
    · right; left; exact ⟨rfl, s1, [], rfl, by omega⟩
    · simp
  · simp only [runeWidth]
    split_ifs with h1 h2 h3 h4 h5 h6
    · simp
    · simp
    · simp
    · right; left; exact ⟨rfl, s1, [s2], rfl, by omega⟩
    · simp
    · right; right; left
      exact ⟨rfl, s1, s2, [], rfl, by omega, isCont_ge _ (by simpa using h5)⟩
    · simp
  · simp only [runeWidth]
    split_ifs with h1 h2 h3 h4 h5 h6 h7
    · simp
    · simp
    · simp
    · right; left; exact ⟨rfl, s1, s2 :: s3 :: r, rfl, by omega⟩
    · simp
    · right; right; left
      exact ⟨rfl, s1, s2, s3 :: r, rfl, by omega, isCont_ge _ (by simpa using h5)⟩
    · simp
    · right; right; right
      exact ⟨rfl, s1, s2, s3, r, rfl, by omega, isCont_ge _ (by simpa using h5),
        isCont_ge _ (by simpa using h7)⟩

/-- The bytes after the first of a rune are not ASCII. -/
theorem runeWidth_tail (b : UInt8) (bs : Bytes) :
    ∀ i x, i < runeWidth (b :: bs) - 1 → bs[i]? = some x → 128 ≤ x.toNat := by
  intro i x hi hx
  rcases runeWidth_cases b bs with h | ⟨h, s1, r, rfl, h1⟩ | ⟨h, s1, s2, r, rfl, h1, h2⟩ |
    ⟨h, s1, s2, s3, r, rfl, h1, h2, h3⟩
  · omega
  · have : i = 0 := by omega
    subst this; simp at hx; subst hx; exact h1
  · have : i = 0 ∨ i = 1 := by omega
    rcases this with rfl | rfl <;> simp at hx <;> subst hx <;> assumption
  · have : i = 0 ∨ i = 1 ∨ i = 2 := by omega
    rcases this with rfl | rfl | rfl <;> simp at hx <;> subst hx <;> assumption

/-- A position holding an ASCII byte is a rune boundary. -/
theorem runesAux_boundary : ∀ (s : Bytes) (k j : Nat) (a : UInt8),
    (∀ i x, i < k → s[i]? = some x → 128 ≤ x.toNat) → s[j]? = some a → a.toNat < 128 →
    ∃ P, runesAux k s = P ++ runesAux 0 (s.drop j) ∧ P.flatten = (s.take j).drop k := by
  intro s
  induction s with
  | nil => intro k j a _ hj; simp at hj
  | cons b bs ih =>
    intro k j a hinv hj ha
    cases k with
    | zero =>
      cases j with
      | zero => exact ⟨[], by simp, by simp⟩
      | succ j =>
        have hj' : bs[j]? = some a := by simpa using hj
        have hw := runeWidth_tail b bs
        have hle : runeWidth (b :: bs) - 1 ≤ j := by
          by_contra hlt
          have := hw j a (by omega) hj'
          omega
        obtain ⟨P, hP, hflat⟩ := ih (runeWidth (b :: bs) - 1) j a hw hj' ha
        refine ⟨(b :: bs.take (runeWidth (b :: bs) - 1)) :: P, ?_, ?_⟩
        · rw [runesAux, hP]; simp
        · simp only [List.flatten_cons, hflat, List.take_succ_cons, List.drop_zero, List.cons_append,
            List.cons.injEq, true_and]
          have : List.take (runeWidth (b :: bs) - 1) bs
              = List.take (runeWidth (b :: bs) - 1) (List.take j bs) := by
            rw [List.take_take, Nat.min_eq_left hle]
          rw [this, List.take_append_drop]
    | succ k =>
      cases j with
      | zero =>
        have := hinv 0 a (by omega) (by simpa using hj)
        omega
      | succ j =>
        have hj' : bs[j]? = some a := by simpa using hj
        obtain ⟨P, hP, hflat⟩ := ih k j a
          (fun i x hi hx => hinv (i + 1) x (by omega) (by simpa using hx)) hj' ha
        exact ⟨P, by rw [runesAux, hP]; simp, by simpa using hflat⟩

theorem runes_boundary (pre : Bytes) (a : UInt8) (rest : Bytes) (ha : a.toNat < 128) :
    ∃ P, runes (pre ++ a :: rest) = P ++ runes (a :: rest) ∧ P.flatten = pre := by
  obtain ⟨P, hP, hflat⟩ := runesAux_boundary (pre ++ a :: rest) 0 pre.length a
    (fun i x hi => absurd hi (by omega))
    (by rw [List.getElem?_append_right (le_refl _)]; simp) ha
  refine ⟨P, ?_, ?_⟩
  · simpa [runes] using hP
  · simpa using hflat

/-- A run of ASCII bytes is cut into one rune for each byte. -/
theorem runes_ascii_append : ∀ (u rest : Bytes), (∀ x ∈ u, x.toNat < 128) →
    runes (u ++ rest) = u.map (fun x => [x]) ++ runes rest := by
  intro u
  induction u with
  | nil => intro rest _; simp
  | cons x u ih =>
    intro rest h
    have hx := h x (by simp)
    have := ih rest (fun y hy => h y (by simp [hy]))
    simp only [runes] at this ⊢
    simp [runesAux_ascii x _ hx, this]

theorem findAux_none (re : List Item) : ∀ (toks : List Bytes), findAux re toks = none →
    ∀ P R, toks = P ++ R → matchItems re R = none := by
  intro toks
  induction toks with
  | nil =>
    intro h P R hPR
    have : P = [] ∧ R = [] := by simpa [eq_comm] using hPR
    rw [this.2]; simpa [findAux] using h
  | cons t ts ih =>
    intro h P R hPR
    rw [findAux] at h
    cases hm : matchItems re (t :: ts) with
    | some m => rw [hm] at h; cases h
    | none =>
      rw [hm] at h
      cases P with
      | nil => simp at hPR; rw [← hPR]; exact hm
      | cons p P =>
        simp at hPR
        exact ih h P R hPR.2

theorem findAux_some (re : List Item) : ∀ (toks : List Bytes) (m : List Bytes),
    findAux re toks = some m →
    ∃ P R, toks = P ++ R ∧ matchItems re R = some m ∧
      ∀ P' R', toks = P' ++ R' → P'.length < P.length → matchItems re R' = none := by
  intro toks
  induction toks with
  | nil =>
    intro m h
    exact ⟨[], [], by simp, by simpa [findAux] using h, by simp⟩
  | cons t ts ih =>
    intro m h
    rw [findAux] at h
    cases hm : matchItems re (t :: ts) with
    | some m1 =>
      rw [hm] at h
      simp only [Option.some.injEq] at h
      subst h
      exact ⟨[], t :: ts, by simp, hm, by simp⟩
    | none =>
      rw [hm] at h
      obtain ⟨P, R, hPR, hR, hleft⟩ := ih m h
      refine ⟨t :: P, R, by simp [hPR], hR, ?_⟩
      intro P' R' hP' hlen
      cases P' with
      | nil => simp at hP'; rw [← hP']; exact hm
      | cons p P' =>
        simp at hP'
        exact hleft P' R' hP'.2 (by simpa using hlen)

/-! ## The hostname pattern -/

theorem accepts_single (c : Class) (hc : c ≠ .anyNotNL) (t : Bytes) (h : c.accepts t = true) :
    ∃ b, t = [b] := by
  rcases t with _ | ⟨b, _ | ⟨b2, r⟩⟩
  · cases c <;> simp_all [Class.accepts]
  · exact ⟨b, rfl⟩
  · cases c <;> simp_all [Class.accepts]

theorem singles_eq : ∀ (l : List Bytes), (∀ t ∈ l, ∃ b, t = [b]) →
    l = l.flatten.map (fun x => [x]) ∧ l.flatten.length = l.length := by
  intro l
  induction l with
  | nil => intro _; simp
  | cons t l ih =>
    intro h
    obtain ⟨b, rfl⟩ := h t (by simp)
    obtain ⟨h1, h2⟩ := ih (fun t ht => h t (by simp [ht]))
    constructor
    · simp only [List.flatten_cons, List.singleton_append, List.map_cons, List.cons.injEq, true_and]
      exact h1
    · simp [h2]

theorem flatten_map_single (u : Bytes) : (u.map (fun x => [x])).flatten = u := by
  induction u with
  | nil => rfl
  | cons x u ih => simp [ih]

/-- One item with a fixed count of a one-byte class, followed by the rest of the pattern. -/
theorem matchItems_fixed_cons (c : Class) (n : Nat) (rest : List Item) (ts m : List Bytes)
    (hc : c ≠ .anyNotNL) :
    matchItems (⟨c, n, some n⟩ :: rest) ts = some m ↔
      ∃ (bs : Bytes) (ts' m' : List Bytes), ts = bs.map (fun x => [x]) ++ ts' ∧ bs.length = n ∧
        (∀ b ∈ bs, c.accepts [b] = true) ∧ matchItems rest ts' = some m' ∧
        m = bs.map (fun x => [x]) ++ m' := by
  rw [matchItems, repeatGreedy_fixed]
  constructor
  · intro h
    split_ifs at h with hcond
    obtain ⟨hlen, hall⟩ := hcond
    cases hk : matchItems rest (ts.drop n) with
    | none => rw [hk] at h; cases h
    | some m' =>
      rw [hk] at h
      simp only [Option.map_some', Option.some.injEq] at h
      have hall' : ∀ t ∈ ts.take n, c.accepts t = true := by simpa using hall
      obtain ⟨h1, h2⟩ := singles_eq (ts.take n) (fun t ht => accepts_single c hc t (hall' t ht))
      refine ⟨(ts.take n).flatten, ts.drop n, m', ?_, ?_, ?_, hk, ?_⟩
      · rw [← h1, List.take_append_drop]
      · rw [h2]; simp [hlen]
      · intro b hb
        apply hall'
        rw [h1]
        exact List.mem_map.mpr ⟨b, hb, rfl⟩
      · rw [← h1, h]
  · rintro ⟨bs, ts', m', rfl, rfl, hacc, hk, rfl⟩
    have htake : List.take bs.length (bs.map (fun x => [x]) ++ ts') = bs.map (fun x => [x]) := by
      rw [List.take_append_of_le_length (by simp)]
      rw [List.take_of_length_le (by simp)]
    have hdrop : List.drop bs.length (bs.map (fun x => [x]) ++ ts') = ts' := by
      rw [List.drop_append_of_le_length (by simp)]
      rw [List.drop_of_length_le (by simp)]
      simp
    rw [htake, hdrop, hk]
    rw [if_pos]
    · simp
    · refine ⟨by simp, ?_⟩
      simp only [List.all_eq_true, List.mem_map, forall_exists_index, and_imp,
        forall_apply_eq_imp_iff₂]
      exact hacc

theorem matchItems_last (c : Class) (mn : Nat) (ts : List Bytes) :
    matchItems [⟨c, mn, none⟩] ts =
      if mn ≤ (ts.takeWhile c.accepts).length then some (ts.takeWhile c.accepts) else none := by
  rw [matchItems]
  exact repeatGreedy_last c ts mn

theorem lowerHex_accepts (b : UInt8) : Class.lowerHex.accepts [b] = isLowerHex b := rfl

theorem word_accepts (b : UInt8) : Class.word.accepts [b] = isWord b := rfl

theorem lit_accepts (c b : UInt8) : (Class.lit c).accepts [b] = true ↔ b = c := by
  simp [Class.accepts]

theorem lit_one (c : UInt8) (bs : Bytes) (hlen : bs.length = 1)
    (h : ∀ b ∈ bs, (Class.lit c).accepts [b] = true) : bs = [c] := by
  rcases bs with _ | ⟨b, _ | ⟨b2, r⟩⟩
  · simp at hlen
  · have := (lit_accepts c b).mp (h b (by simp)); rw [this]
  · simp at hlen

/-- What the hostname pattern matches at the head of the runes: a token of the hostname
shape, one rune for each byte, that no word character follows. -/
theorem matchItems_hostname_sound (ts m : List Bytes) (h : matchItems hostnameRe ts = some m) :
    ∃ R, ts = m ++ R ∧ HostnameShape m.flatten ∧ m = m.flatten.map (fun x => [x]) ∧
      (∀ t R', R = t :: R' → Class.word.accepts t = false) := by
  unfold hostnameRe at h
  obtain ⟨a, t1, m1, rfl, ha, haa, h1, rfl⟩ := (matchItems_fixed_cons _ _ _ _ _ (by decide)).mp h
  obtain ⟨s1, t2, m2, rfl, hs1, hss1, h2, rfl⟩ := (matchItems_fixed_cons _ _ _ _ _ (by decide)).mp h1
  obtain ⟨b, t3, m3, rfl, hb, hbb, h3, rfl⟩ := (matchItems_fixed_cons _ _ _ _ _ (by decide)).mp h2
  obtain ⟨s2, t4, m4, rfl, hs2, hss2, h4, rfl⟩ := (matchItems_fixed_cons _ _ _ _ _ (by decide)).mp h3
  obtain ⟨c, t5, m5, rfl, hc, hcc, h5, rfl⟩ := (matchItems_fixed_cons _ _ _ _ _ (by decide)).mp h4
  obtain ⟨s3, t6, m6, rfl, hs3, hss3, h6, rfl⟩ := (matchItems_fixed_cons _ _ _ _ _ (by decide)).mp h5
  obtain ⟨d, t7, m7, rfl, hd, hdd, h7, rfl⟩ := (matchItems_fixed_cons _ _ _ _ _ (by decide)).mp h6
  obtain ⟨s4, t8, m8, rfl, hs4, hss4, h8, rfl⟩ := (matchItems_fixed_cons _ _ _ _ _ (by decide)).mp h7
  obtain ⟨e, t9, m9, rfl, he, hee, h9, rfl⟩ := (matchItems_fixed_cons _ _ _ _ _ (by decide)).mp h8
  obtain ⟨s5, R0, m10, rfl, hs5, hss5, h10, rfl⟩ :=
    (matchItems_fixed_cons _ _ _ _ _ (by decide)).mp h9
  clear h h1 h2 h3 h4 h5 h6 h7 h8 h9
  rw [matchItems_last] at h10
  split_ifs at h10 with hlen
  simp only [Option.some.injEq] at h10
  subst h10
  have e1 := lit_one 45 s1 hs1 hss1
  have e2 := lit_one 45 s2 hs2 hss2
  have e3 := lit_one 45 s3 hs3 hss3
  have e4 := lit_one 45 s4 hs4 hss4
  have e5 := lit_one 95 s5 hs5 hss5
  subst e1 e2 e3 e4 e5
  have hwacc : ∀ t ∈ List.takeWhile Class.word.accepts R0, Class.word.accepts t = true :=
    fun t ht => List.mem_takeWhile_imp ht
  obtain ⟨hw1, hw2⟩ := singles_eq (List.takeWhile Class.word.accepts R0)
    (fun t ht => accepts_single _ (by decide) t (hwacc t ht))
  refine ⟨List.dropWhile Class.word.accepts R0, ?_, ?_, ?_, ?_⟩
  · simp only [List.append_assoc, List.takeWhile_append_dropWhile]
  · refine ⟨a, b, c, d, e, (List.takeWhile Class.word.accepts R0).flatten, ?_, ha, hb, hc, hd, he,
      haa, hbb, hcc, hdd, hee, ?_, ?_⟩
    · simp [flatten_map_single]
    · intro hnil
      rw [hnil] at hw2
      simp only [List.length_nil] at hw2
      omega
    · intro x hx
      have : [x] ∈ List.takeWhile Class.word.accepts R0 := by
        rw [hw1]; exact List.mem_map.mpr ⟨x, hx, rfl⟩
      exact hwacc _ this
  · nth_rewrite 1 [hw1]
    simp [flatten_map_single]
  · intro t R' hR
    have hne : List.dropWhile Class.word.accepts R0 ≠ [] := by rw [hR]; simp
    have := List.head_dropWhile_not Class.word.accepts R0 hne
    simpa [hR] using this

/-- Wherever the runes begin with a token of the hostname shape, the pattern matches. -/
theorem matchItems_hostname_complete (u : Bytes) (R : List Bytes) (hu : HostnameShape u) :
    ∃ m, matchItems hostnameRe (u.map (fun x => [x]) ++ R) = some m := by
  obtain ⟨a, b, c, d, e, w, rfl, ha, hb, hc, hd, he, haa, hbb, hcc, hdd, hee, hw, hww⟩ := hu
  have hlast : ∃ m, matchItems [⟨.word, 1, none⟩] (w.map (fun x => [x]) ++ R) = some m := by
    rw [matchItems_last]
    rcases w with _ | ⟨x, w⟩
    · exact absurd rfl hw
    · have hx : Class.word.accepts [x] = true := hww x (by simp)
      simp [List.takeWhile_cons, hx]
  obtain ⟨m, hm⟩ := hlast
  have h10 := (matchItems_fixed_cons (.lit 95) 1 _ ([95] :: _) ([95] :: _) (by decide)).mpr
    ⟨[95], _, _, rfl, rfl, by simp [Class.accepts], hm, rfl⟩
  have h9 := (matchItems_fixed_cons .lowerHex 12 _ (e.map (fun x => [x]) ++ _)
    (e.map (fun x => [x]) ++ _) (by decide)).mpr ⟨e, _, _, rfl, he, hee, h10, rfl⟩
  have h8 := (matchItems_fixed_cons (.lit 45) 1 _ ([45] :: _) ([45] :: _) (by decide)).mpr
    ⟨[45], _, _, rfl, rfl, by simp [Class.accepts], h9, rfl⟩
  have h7 := (matchItems_fixed_cons .lowerHex 4 _ (d.map (fun x => [x]) ++ _)
    (d.map (fun x => [x]) ++ _) (by decide)).mpr ⟨d, _, _, rfl, hd, hdd, h8, rfl⟩
  have h6 := (matchItems_fixed_cons (.lit 45) 1 _ ([45] :: _) ([45] :: _) (by decide)).mpr
    ⟨[45], _, _, rfl, rfl, by simp [Class.accepts], h7, rfl⟩
  have h5 := (matchItems_fixed_cons .lowerHex 4 _ (c.map (fun x => [x]) ++ _)
    (c.map (fun x => [x]) ++ _) (by decide)).mpr ⟨c, _, _, rfl, hc, hcc, h6, rfl⟩
  have h4 := (matchItems_fixed_cons (.lit 45) 1 _ ([45] :: _) ([45] :: _) (by decide)).mpr
    ⟨[45], _, _, rfl, rfl, by simp [Class.accepts], h5, rfl⟩
  have h3 := (matchItems_fixed_cons .lowerHex 4 _ (b.map (fun x => [x]) ++ _)
    (b.map (fun x => [x]) ++ _) (by decide)).mpr ⟨b, _, _, rfl, hb, hbb, h4, rfl⟩
  have h2 := (matchItems_fixed_cons (.lit 45) 1 _ ([45] :: _) ([45] :: _) (by decide)).mpr
    ⟨[45], _, _, rfl, rfl, by simp [Class.accepts], h3, rfl⟩
  have h1 := (matchItems_fixed_cons .lowerHex 8 _ (a.map (fun x => [x]) ++ _)
    (a.map (fun x => [x]) ++ _) (by decide)).mpr ⟨a, _, _, rfl, ha, haa, h2, rfl⟩
  unfold hostnameRe
  simp only [List.map_append, List.map_cons, List.append_assoc, List.cons_append]
  exact ⟨_, h1⟩

theorem runesAux_token : ∀ (s : Bytes) (k : Nat), ∀ t ∈ runesAux k s,
    ∃ b r, t = b :: r ∧ (r = [] ∨ 128 ≤ b.toNat) := by
  intro s
  induction s with
  | nil => intro k t ht; simp [runesAux] at ht
  | cons b bs ih =>
    intro k t ht
    cases k with
    | zero =>
      rw [runesAux] at ht
      rcases List.mem_cons.mp ht with rfl | h
      · refine ⟨b, _, rfl, ?_⟩
        by_cases hb : b.toNat < 128
        · left; rw [runeWidth_ascii b bs hb]; simp
        · right; omega
      · exact ih _ t h
    | succ k => rw [runesAux] at ht; exact ih _ t ht

theorem isLowerHex_ascii (x : UInt8) (h : isLowerHex x = true) : x.toNat < 128 := by
  simp only [isLowerHex, isDigit, Bool.or_eq_true, Bool.and_eq_true, decide_eq_true_eq] at h
  omega

theorem isWord_ascii (x : UInt8) (h : isWord x = true) : x.toNat < 128 := by
  simp only [isWord, isDigit, Bool.or_eq_true, Bool.and_eq_true, decide_eq_true_eq,
    beq_iff_eq] at h
  omega

theorem isDigit_ascii (x : UInt8) (h : isDigit x = true) : x.toNat < 128 := by
  simp only [isDigit, Bool.and_eq_true, decide_eq_true_eq] at h
  omega

theorem HostnameShape.ascii {t : Bytes} (h : HostnameShape t) : ∀ x ∈ t, x.toNat < 128 := by
  obtain ⟨a, b, c, d, e, w, rfl, -, -, -, -, -, haa, hbb, hcc, hdd, hee, -, hww⟩ := h
  intro x hx
  simp only [List.mem_append, List.mem_cons] at hx
  rcases hx with h | rfl | h | rfl | h | rfl | h | rfl | h | rfl | h
  · exact isLowerHex_ascii x (haa x h)
  · decide
  · exact isLowerHex_ascii x (hbb x h)
  · decide
  · exact isLowerHex_ascii x (hcc x h)
  · decide
  · exact isLowerHex_ascii x (hdd x h)
  · decide
  · exact isLowerHex_ascii x (hee x h)
  · decide
  · exact isWord_ascii x (hww x h)

theorem HostnameShape.ne_nil {t : Bytes} (h : HostnameShape t) : t ≠ [] := by
  obtain ⟨a, b, c, d, e, w, rfl, ha, -⟩ := h
  intro hnil
  have := congrArg List.length hnil
  simp at this

/-- Where a token of the hostname shape stands in the text, the pattern matches the runes
from there on. -/
theorem hostname_match_at (pre t post : Bytes) (ht : HostnameShape t) :
    ∃ P m, runes (pre ++ t ++ post) = P ++ (t.map (fun x => [x]) ++ runes post) ∧
      P.flatten = pre ∧ matchItems hostnameRe (t.map (fun x => [x]) ++ runes post) = some m := by
  obtain ⟨m, hm⟩ := matchItems_hostname_complete t (runes post) ht
  rcases t with _ | ⟨a0, t'⟩
  · exact absurd rfl ht.ne_nil
  · obtain ⟨P, hP, hflat⟩ := runes_boundary pre a0 (t' ++ post) (ht.ascii a0 (by simp))
    refine ⟨P, m, ?_, hflat, hm⟩
    have := runes_ascii_append (a0 :: t') post ht.ascii
    simp only [List.append_assoc, List.cons_append] at this ⊢
    rw [hP, this]

theorem flatten_length_le_of_append_eq {P P' R R' : List Bytes} (h : P ++ R = P' ++ R')
    (hlen : P.length ≤ P'.length) : P.flatten.length ≤ P'.flatten.length := by
  rcases List.append_eq_append_iff.mp h with ⟨Q, hQ, -⟩ | ⟨Q, hQ, -⟩
  · rw [hQ]; simp
  · have : Q = [] := by
      have := congrArg List.length hQ
      simp at this
      exact List.eq_nil_of_length_eq_zero (by omega)
    rw [hQ, this]; simp

/-- The text `FindString` returns for the hostname pattern, when it finds a match: the
leftmost token of the hostname shape, taken up to the end of its run of word characters. -/
theorem findString_hostname_some (s : Bytes) (m : List Bytes)
    (h : findAux hostnameRe (runes s) = some m) :
    ∃ pre post, s = pre ++ m.flatten ++ post ∧ HostnameShape m.flatten ∧
      (∀ b post', post = b :: post' → isWord b = false) ∧
      (∀ pre' t' post', s = pre' ++ t' ++ post' → HostnameShape t' → pre.length ≤ pre'.length) := by
  obtain ⟨P, R, hPR, hR, hleft⟩ := findAux_some _ _ _ h
  obtain ⟨R2, rfl, hshape, hsing, hmax⟩ := matchItems_hostname_sound _ _ hR
  have hs : s = P.flatten ++ m.flatten ++ R2.flatten := by
    have := congrArg List.flatten hPR
    rw [runes_flatten] at this
    simpa using this
  refine ⟨P.flatten, R2.flatten, hs, hshape, ?_, ?_⟩
  · intro b post' hpost
    rcases R2 with _ | ⟨t, R2'⟩
    · simp at hpost
    · have hacc := hmax t R2' rfl
      have hmem : t ∈ runes s := by rw [hPR]; simp
      obtain ⟨b0, r, rfl, hr⟩ := runesAux_token s 0 t hmem
      simp only [List.flatten_cons, List.cons_append, List.cons.injEq] at hpost
      obtain ⟨rfl, -⟩ := hpost
      rcases hr with rfl | hge
      · simpa [Class.accepts] using hacc
      · by_contra hw
        have := isWord_ascii b0 (by simpa using hw)
        omega
  · intro pre' t' post' hs' ht'
    obtain ⟨P', m', hP', hflat', hm'⟩ := hostname_match_at pre' t' post' ht'
    rw [← hs', hPR] at hP'
    by_contra hlt
    have hlen : P'.length < P.length := by
      by_contra hge
      have := flatten_length_le_of_append_eq hP' (by omega)
      rw [hflat'] at this
      omega
    have := hleft P' _ (hPR.trans hP') hlen
    rw [hm'] at this
    cases this

theorem findString_hostname_none (s : Bytes) (h : findAux hostnameRe (runes s) = none) :
    ¬ ∃ pre t post, s = pre ++ t ++ post ∧ HostnameShape t := by
  rintro ⟨pre, t, post, rfl, ht⟩
  obtain ⟨P, m, hP, -, hm⟩ := hostname_match_at pre t post ht
  have := findAux_none _ _ h P _ hP
  rw [hm] at this
  cases this

/-- `FindString` with the hostname pattern returns `""` exactly when the text has no
substring of the hostname shape. -/
theorem findString_hostname_nil_iff (s : Bytes) :
    FindString hostnameRe s = [] ↔ ¬ ∃ pre t post, s = pre ++ t ++ post ∧ HostnameShape t := by
  unfold FindString
  cases h : findAux hostnameRe (runes s) with
  | none => simpa using findString_hostname_none s h
  | some m =>
    obtain ⟨pre, post, hs, hshape, -, -⟩ := findString_hostname_some s m h
    simp only
    constructor
    · intro hnil; exact absurd hnil hshape.ne_nil
    · intro hno; exact absurd ⟨pre, m.flatten, post, hs, hshape⟩ hno

/-! ## Header assembly and `Parse` -/

theorem parseTimestamp_buff (now : Time) (p : Parser) :
    p.parseTimestamp now = (NewParser p.buff).parseTimestamp now := rfl

theorem parseHostname_buff (p : Parser) : p.parseHostname = (NewParser p.buff).parseHostname := rfl

theorem parseAppName_buff (p : Parser) (host : Bytes) :
    p.parseAppName host = (NewParser p.buff).parseAppName host := rfl

/-- `parseHeader` when the priority scanner fails. -/
theorem parseHeader_priority_err (sc : Scanner) (now : Time) (p : Parser) (v : Priority)
    (se : ScanErr) (c : Nat) (h : sc.ParsePriority p.buff p.cursor p.l = ((v, some se), c)) :
    p.parseHeader sc now = .ret (({}, some (.scan se)), { p with cursor := c }) := by
  simp only [Parser.parseHeader, h]

/-- `parseHeader` when the version scanner fails. -/
theorem parseHeader_version_err (sc : Scanner) (now : Time) (p : Parser) (pri : Priority)
    (c1 : Nat) (v : Int) (se : ScanErr) (c : Nat)
    (h1 : sc.ParsePriority p.buff p.cursor p.l = ((pri, none), c1))
    (h2 : sc.ParseVersion p.buff c1 p.l = ((v, some se), c)) :
    p.parseHeader sc now = .ret (({ priority := pri }, some (.scan se)), { p with cursor := c }) := by
  simp only [Parser.parseHeader, h1, h2]

/-- `parseHeader` once both scanners have succeeded: the three extractors run on the
buffer, with the cursor one past where the version scanner left it. -/
theorem parseHeader_scanned (sc : Scanner) (now : Time) (p : Parser) (pri : Priority)
    (c1 : Nat) (ver : Int) (c2 : Nat)
    (h1 : sc.ParsePriority p.buff p.cursor p.l = ((pri, none), c1))
    (h2 : sc.ParseVersion p.buff c1 p.l = ((ver, none), c2)) :
    p.parseHeader sc now =
      match (NewParser p.buff).parseTimestamp now with
      | .indexOutOfRange j n => .indexOutOfRange j n
      | .sliceOutOfRange j n => .sliceOutOfRange j n
      | .ret (_, some err) =>
        .ret (({ priority := pri, version := ver }, some err), { p with cursor := c2 + 1 })
      | .ret (ts, none) =>
        match (NewParser p.buff).parseHostname with
        | (_, some err) =>
          .ret (({ priority := pri, version := ver, timestamp := ts }, some err),
            { p with cursor := c2 + 1 })
        | (host, none) =>
          match (NewParser p.buff).parseAppName host with
          | .indexOutOfRange j n => .indexOutOfRange j n
          | .sliceOutOfRange j n => .sliceOutOfRange j n
          | .ret (_, some err) =>
            .ret (({ priority := pri, version := ver, timestamp := ts, hostname := host },
              some err), { p with cursor := c2 + 1 })
          | .ret (appName, none) =>
            .ret (({ priority := pri, version := ver, timestamp := ts, hostname := host
                     appName := appName }, none), { p with cursor := c2 + 1 }) := by
  simp only [Parser.parseHeader, h1, h2]
  rfl

theorem sliceFrom_nat (s : Bytes) (c : Nat) (h : c ≤ s.length) :
    sliceFrom s (c : Int) = .ret (s.drop c) := by
  simp [sliceFrom, h]

/-- `Parse` after `parseHeader` has returned. -/
theorem parse_of_header (sc : Scanner) (now : Time) (p q : Parser) (hdr : Meraki.header)
    (err : Option Err) (h : p.parseHeader sc now = .ret ((hdr, err), q)) :
    p.Parse sc now =
      if err ≠ none ∧ err ≠ some .ErrHostnameNotFound then .ret (err, q)
      else if q.cursor < q.l then
        match sliceFrom q.buff q.cursor with
        | .ret m => .ret (none, { q with header := hdr, message := m })
        | .indexOutOfRange j n => .indexOutOfRange j n
        | .sliceOutOfRange j n => .sliceOutOfRange j n
      else .ret (none, { q with header := hdr }) := by
  simp only [Parser.Parse, h]

/-- `Parse` on a fresh parser after `parseHeader` has returned with the buffer and length
untouched: the message is cut at the cursor. -/
theorem parse_new_of_header (sc : Scanner) (now : Time) (buff : Bytes) (c : Nat)
    (hdr : Meraki.header) (err : Option Err)
    (h : (NewParser buff).parseHeader sc now = .ret ((hdr, err), { NewParser buff with cursor := c })) :
    (NewParser buff).Parse sc now =
      if err ≠ none ∧ err ≠ some .ErrHostnameNotFound then
        .ret (err, { NewParser buff with cursor := c })
      else .ret (none, { NewParser buff with cursor := c, header := hdr
                                             message := if c < buff.length then buff.drop c else [] }) := by
  rw [parse_of_header sc now _ _ hdr err h]
  by_cases he : err ≠ none ∧ err ≠ some .ErrHostnameNotFound
  · rw [if_pos he, if_pos he]
  · rw [if_neg he, if_neg he]
    by_cases hc : c < buff.length
    · have : sliceFrom buff (c : Int) = .ret (buff.drop c) := sliceFrom_nat buff c (by omega)
      simp [NewParser, hc, this]
    · simp [NewParser, hc]

theorem ParseInt_err (s : Bytes) (v : Int) (e : Err) (h : ParseInt s = (v, some e)) :
    ∃ k, e = .numError "ParseInt" s k := by
  unfold ParseInt at h
  cases s with
  | nil =>
    simp only [Prod.mk.injEq, Option.some.injEq] at h
    exact ⟨_, h.2.symm⟩
  | cons c cs =>
    simp only at h
    generalize ParseUint (if c == 43 ∨ c == 45 then cs else c :: cs) = r at h
    obtain ⟨un, _ | k⟩ := r
    · simp only at h
      split_ifs at h <;> simp only [Prod.mk.injEq, Option.some.injEq] at h
      all_goals first | exact ⟨_, h.2.symm⟩ | exact absurd h.2 (by simp)
    · cases k
      · simp only [Prod.mk.injEq, Option.some.injEq] at h
        exact ⟨_, h.2.symm⟩
      · simp only at h
        split_ifs at h <;> simp only [Prod.mk.injEq, Option.some.injEq] at h
        all_goals first | exact ⟨_, h.2.symm⟩ | exact absurd h.2 (by simp)

theorem parseTimestamp_err (now : Time) (p : Parser) (ts : Time) (e : Err)
    (h : p.parseTimestamp now = .ret (ts, some e)) : ∃ num k, e = .numError "ParseInt" num k := by
  simp only [Parser.parseTimestamp] at h
  split_ifs at h
  · simp at h
  · split at h
    · cases h
    · split at h
      · rename_i herr
        simp only [Result.ret.injEq, Prod.mk.injEq, Option.some.injEq] at h
        obtain ⟨k, hk⟩ := ParseInt_err _ _ _ herr
        exact ⟨_, k, h.2 ▸ hk⟩
      · split at h <;> simp at h

theorem parseHostname_err (p : Parser) (host : Bytes) (e : Err)
    (h : p.parseHostname = (host, some e)) : e = .ErrHostnameNotFound ∧ host = [] := by
  simp only [Parser.parseHostname] at h
  split_ifs at h with h0
  · simp only [Prod.mk.injEq, Option.some.injEq] at h
    exact ⟨h.2.symm, by rw [← h.1, h0]⟩
  · simp at h

theorem parseAppName_noerr (p : Parser) (host app : Bytes) (e : Err) :
    p.parseAppName host ≠ .ret (app, some e) := by
  intro h
  simp only [Parser.parseAppName] at h
  split_ifs at h
  · simp at h
  · split at h
    · split at h
      · split at h <;> simp at h
      · simp at h
      · simp at h
    · simp at h
    · simp at h

/-- `Parse` when the priority scanner fails. -/
theorem parse_priority_err (sc : Scanner) (now : Time) (buff : Bytes) (v : Priority)
    (se : ScanErr) (c : Nat) (h : sc.ParsePriority buff 0 buff.length = ((v, some se), c)) :
    (NewParser buff).Parse sc now = .ret (some (.scan se), { NewParser buff with cursor := c }) := by
  have hh := parseHeader_priority_err sc now (NewParser buff) v se c h
  rw [parse_new_of_header sc now buff _ _ _ hh]
  simp

/-- `Parse` when the version scanner fails. -/
theorem parse_version_err (sc : Scanner) (now : Time) (buff : Bytes) (pri : Priority)
    (c1 : Nat) (v : Int) (se : ScanErr) (c : Nat)
    (h1 : sc.ParsePriority buff 0 buff.length = ((pri, none), c1))
    (h2 : sc.ParseVersion buff c1 buff.length = ((v, some se), c)) :
    (NewParser buff).Parse sc now = .ret (some (.scan se), { NewParser buff with cursor := c }) := by
  have hh := parseHeader_version_err sc now (NewParser buff) pri c1 v se c h1 h2
  rw [parse_new_of_header sc now buff _ _ _ hh]
  simp

/-- `Parse` when timestamp extraction returns an error. -/
theorem parse_timestamp_err (sc : Scanner) (now : Time) (buff : Bytes) (pri : Priority)
    (c1 : Nat) (ver : Int) (c2 : Nat) (ts : Time) (e : Err)
    (h1 : sc.ParsePriority buff 0 buff.length = ((pri, none), c1))
    (h2 : sc.ParseVersion buff c1 buff.length = ((ver, none), c2))
    (h3 : (NewParser buff).parseTimestamp now = .ret (ts, some e)) :
    (NewParser buff).Parse sc now = .ret (some e, { NewParser buff with cursor := c2 + 1 }) := by
  have hh := parseHeader_scanned sc now (NewParser buff) pri c1 ver c2 h1 h2
  have hb : (NewParser buff).buff = buff := rfl
  rw [hb, h3] at hh
  simp only at hh
  rw [parse_new_of_header sc now buff _ _ _ hh]
  obtain ⟨num, k, rfl⟩ := parseTimestamp_err _ _ _ _ h3
  simp

/-- `Parse` when timestamp extraction panics. -/
theorem parse_timestamp_panic (sc : Scanner) (now : Time) (buff : Bytes) (pri : Priority)
    (c1 : Nat) (ver : Int) (c2 : Nat) (j : Int) (n : Nat)
    (h1 : sc.ParsePriority buff 0 buff.length = ((pri, none), c1))
    (h2 : sc.ParseVersion buff c1 buff.length = ((ver, none), c2))
    (h3 : (NewParser buff).parseTimestamp now = .indexOutOfRange j n) :
    (NewParser buff).Parse sc now = .indexOutOfRange j n := by
  have hh := parseHeader_scanned sc now (NewParser buff) pri c1 ver c2 h1 h2
  have hb : (NewParser buff).buff = buff := rfl
  rw [hb, h3] at hh
  simp only at hh
  simp only [Parser.Parse, hh]

/-- `Parse` when the scanners and timestamp extraction succeed and no hostname is found. -/
theorem parse_no_hostname (sc : Scanner) (now : Time) (buff : Bytes) (pri : Priority)
    (c1 : Nat) (ver : Int) (c2 : Nat) (ts : Time)
    (h1 : sc.ParsePriority buff 0 buff.length = ((pri, none), c1))
    (h2 : sc.ParseVersion buff c1 buff.length = ((ver, none), c2))
    (h3 : (NewParser buff).parseTimestamp now = .ret (ts, none))
    (h4 : FindString hostnameRe buff = []) :
    (NewParser buff).Parse sc now =
      .ret (none, { NewParser buff with
                    cursor := c2 + 1
                    header := { priority := pri, version := ver, timestamp := ts }
                    message := if c2 + 1 < buff.length then buff.drop (c2 + 1) else [] }) := by
  have hh := parseHeader_scanned sc now (NewParser buff) pri c1 ver c2 h1 h2
  have hb : (NewParser buff).buff = buff := rfl
  have hhost : (NewParser buff).parseHostname = ([], some .ErrHostnameNotFound) := by
    simp [Parser.parseHostname, NewParser, h4]
  rw [hb, h3] at hh
  simp only [hhost] at hh
  rw [parse_new_of_header sc now buff _ _ _ hh]
  simp

/-- `Parse` when the scanners, timestamp extraction and app-name extraction succeed and a
hostname is found. -/
theorem parse_hostname (sc : Scanner) (now : Time) (buff : Bytes) (pri : Priority)
    (c1 : Nat) (ver : Int) (c2 : Nat) (ts : Time) (app : Bytes)
    (h1 : sc.ParsePriority buff 0 buff.length = ((pri, none), c1))
    (h2 : sc.ParseVersion buff c1 buff.length = ((ver, none), c2))
    (h3 : (NewParser buff).parseTimestamp now = .ret (ts, none))
    (h4 : FindString hostnameRe buff ≠ [])
    (h5 : (NewParser buff).parseAppName (FindString hostnameRe buff) = .ret (app, none)) :
    (NewParser buff).Parse sc now =
      .ret (none, { NewParser buff with
                    cursor := c2 + 1
                    header := { priority := pri, version := ver, timestamp := ts
                                hostname := FindString hostnameRe buff, appName := app }
                    message := if c2 + 1 < buff.length then buff.drop (c2 + 1) else [] }) := by
  have hh := parseHeader_scanned sc now (NewParser buff) pri c1 ver c2 h1 h2
  have hb : (NewParser buff).buff = buff := rfl
  have hhost : (NewParser buff).parseHostname = (FindString hostnameRe buff, none) := by
    simp [Parser.parseHostname, NewParser, h4]
  rw [hb, h3] at hh
  simp only [hhost, h5] at hh
  rw [parse_new_of_header sc now buff _ _ _ hh]
  simp

/-- `parseHeader` changes nothing of the parser but the cursor. -/
theorem parseHeader_frame (sc : Scanner) (now : Time) (p q : Parser)
    (r : Meraki.header × Option Err) (h : p.parseHeader sc now = .ret (r, q)) :
    q = { p with cursor := q.cursor } := by
  rcases hpri : sc.ParsePriority p.buff p.cursor p.l with ⟨⟨pri, _ | se⟩, c1⟩
  · rcases hver : sc.ParseVersion p.buff c1 p.l with ⟨⟨ver, _ | se⟩, c2⟩
    · rw [parseHeader_scanned sc now p pri c1 ver c2 hpri hver] at h
      split at h
      · cases h
      · cases h
      · simp only [Result.ret.injEq, Prod.mk.injEq] at h; rw [← h.2]
      · split at h
        · simp only [Result.ret.injEq, Prod.mk.injEq] at h; rw [← h.2]
        · split at h
          · cases h
          · cases h
          · simp only [Result.ret.injEq, Prod.mk.injEq] at h; rw [← h.2]
          · simp only [Result.ret.injEq, Prod.mk.injEq] at h; rw [← h.2]
    · rw [parseHeader_version_err sc now p pri c1 ver se c2 hpri hver] at h
      simp only [Result.ret.injEq, Prod.mk.injEq] at h; rw [← h.2]
  · rw [parseHeader_priority_err sc now p pri se c1 hpri] at h
    simp only [Result.ret.injEq, Prod.mk.injEq] at h; rw [← h.2]

/-! ## The timestamp pattern -/

theorem digit_accepts (b : UInt8) : Class.digit.accepts [b] = isDigit b := rfl

/-- The timestamp pattern matches only at a run of ten or more digits. -/
theorem findAux_timestamp_some (s : Bytes) (m : List Bytes)
    (h : findAux timestampRe (runes s) = some m) : HasDigitRun 10 s := by
  obtain ⟨P, R, hPR, hR, -⟩ := findAux_some _ _ _ h
  unfold timestampRe at hR
  rw [matchItems] at hR
  obtain ⟨n, m', hn, hlen, hacc, -, -, -⟩ := repeatGreedy_sound _ _ _ _ _ _ hR
  simp only at hn
  obtain ⟨h1, h2⟩ := singles_eq (R.take n) (fun t ht => accepts_single _ (by decide) t (hacc t ht))
  refine ⟨P.flatten, (R.take n).flatten, (R.drop n).flatten, ?_, ?_, ?_⟩
  · have := congrArg List.flatten hPR
    rw [runes_flatten] at this
    rw [this, List.append_assoc, ← List.flatten_append, List.take_append_drop, List.flatten_append]
  · rw [h2, List.length_take]; omega
  · intro x hx
    have : [x] ∈ R.take n := by rw [h1]; exact List.mem_map.mpr ⟨x, hx, rfl⟩
    exact hacc _ this

theorem findString_timestamp_nil (s : Bytes) (h : ¬ HasDigitRun 10 s) :
    FindString timestampRe s = [] := by
  unfold FindString
  cases hf : findAux timestampRe (runes s) with
  | none => rfl
  | some m => exact absurd (findAux_timestamp_some s m hf) h

/-- A text in which no position starts ten digits has no run of ten digits. -/
theorem not_hasDigitRun (s : Bytes)
    (h : (List.range s.length).all
      (fun i => decide (((s.drop i).takeWhile isDigit).length < 10)) = true) :
    ¬ HasDigitRun 10 s := by
  rintro ⟨pre, d, post, rfl, hlen, hd⟩
  simp only [List.all_eq_true, List.mem_range, decide_eq_true_eq] at h
  have hpre : pre.length < (pre ++ d ++ post).length := by simp; omega
  have := h pre.length hpre
  rw [List.append_assoc, List.drop_left] at this
  have hle : d.length ≤ (List.takeWhile isDigit (d ++ post)).length := by
    clear this hlen hpre h
    induction d with
    | nil => simp
    | cons x d ih =>
      have hx : isDigit x = true := hd x (by simp)
      simp only [List.cons_append, List.takeWhile_cons, hx, if_true, List.length_cons]
      have := ih (fun y hy => hd y (by simp [hy]))
      omega
  omega

/-- What `parseTimestamp` returns without error is the clock reading or built by `Unix`. -/
theorem parseTimestamp_ok (now : Time) (p : Parser) (ts : Time)
    (h : p.parseTimestamp now = .ret (ts, none)) :
    (FindString timestampRe p.buff = [] ∧ ts = now) ∨
    (FindString timestampRe p.buff ≠ [] ∧ ∃ sec nano, ts = Unix sec nano) := by
  simp only [Parser.parseTimestamp] at h
  split_ifs at h with h0
  · left
    simp only [Result.ret.injEq, Prod.mk.injEq, and_true] at h
    exact ⟨h0, h.symm⟩
  · right
    refine ⟨h0, ?_⟩
    split at h
    · cases h
    · split at h
      · simp at h
      · split at h
        · cases h
        · simp only [Result.ret.injEq, Prod.mk.injEq, and_true] at h
          exact ⟨_, _, h.symm⟩

/-- The parser a successful `Parse` of a fresh parser leaves, once both scanners have
succeeded. -/
theorem parse_ok_shape (sc : Scanner) (now : Time) (buff : Bytes) (pri : Priority)
    (c1 : Nat) (ver : Int) (c2 : Nat) (p' : Parser)
    (h1 : sc.ParsePriority buff 0 buff.length = ((pri, none), c1))
    (h2 : sc.ParseVersion buff c1 buff.length = ((ver, none), c2))
    (h : (NewParser buff).Parse sc now = .ret (none, p')) :
    ∃ ts host app, (NewParser buff).parseTimestamp now = .ret (ts, none) ∧
      p' = { NewParser buff with
             cursor := c2 + 1
             header := { priority := pri, version := ver, timestamp := ts
                         hostname := host, appName := app }
             message := if c2 + 1 < buff.length then buff.drop (c2 + 1) else [] } ∧
      ((FindString hostnameRe buff = [] ∧ host = [] ∧ app = []) ∨
       (FindString hostnameRe buff ≠ [] ∧ host = FindString hostnameRe buff ∧
        (NewParser buff).parseAppName host = .ret (app, none))) := by
  have hh := parseHeader_scanned sc now (NewParser buff) pri c1 ver c2 h1 h2
  have hb : (NewParser buff).buff = buff := rfl
  rw [hb] at hh
  cases hts : (NewParser buff).parseTimestamp now with
  | ret r =>
    obtain ⟨ts, _ | terr⟩ := r
    · by_cases hhost : FindString hostnameRe buff = []
      · rw [parse_no_hostname sc now buff pri c1 ver c2 ts h1 h2 hts hhost] at h
        simp only [Result.ret.injEq, Prod.mk.injEq, true_and] at h
        exact ⟨ts, [], [], rfl, h.symm, Or.inl ⟨hhost, rfl, rfl⟩⟩
      · cases happ : (NewParser buff).parseAppName (FindString hostnameRe buff) with
        | ret r =>
          obtain ⟨app, _ | aerr⟩ := r
          · rw [parse_hostname sc now buff pri c1 ver c2 ts app h1 h2 hts hhost happ] at h
            simp only [Result.ret.injEq, Prod.mk.injEq, true_and] at h
            exact ⟨ts, _, app, rfl, h.symm, Or.inr ⟨hhost, rfl, happ⟩⟩
          · exact absurd happ (parseAppName_noerr _ _ _ _)
        | indexOutOfRange j n =>
          have hhn : (NewParser buff).parseHostname = (FindString hostnameRe buff, none) := by
            simp [Parser.parseHostname, NewParser, hhost]
          rw [hts] at hh
          simp only [hhn, happ] at hh
          simp [Parser.Parse, hh] at h
        | sliceOutOfRange j n =>
          have hhn : (NewParser buff).parseHostname = (FindString hostnameRe buff, none) := by
            simp [Parser.parseHostname, NewParser, hhost]
          rw [hts] at hh
          simp only [hhn, happ] at hh
          simp [Parser.Parse, hh] at h
    · rw [parse_timestamp_err sc now buff pri c1 ver c2 ts terr h1 h2 hts] at h
      simp at h
  | indexOutOfRange j n =>
    rw [hts] at hh
    simp [Parser.Parse, hh] at h
  | sliceOutOfRange j n =>
    rw [hts] at hh
    simp [Parser.Parse, hh] at h

theorem decimalFrom_ge : ∀ (cs : Bytes) (n : Nat), n ≤ decimalFrom n cs := by
  intro cs
  induction cs with
  | nil => intro n; exact le_refl _
  | cons c cs ih =>
    intro n
    have := ih (n * 10 + (c.toNat - 48))
    show n ≤ decimalFrom (n * 10 + (c.toNat - 48)) cs
    omega

theorem parseUintLoop_digits : ∀ (cs : Bytes) (n : Nat), (∀ x ∈ cs, isDigit x = true) →
    decimalFrom n cs < 2 ^ 64 → parseUintLoop n cs = (decimalFrom n cs, none) := by
  intro cs
  induction cs with
  | nil => intro n _ _; rfl
  | cons c cs ih =>
    intro n hd hlt
    have hc : isDigit c = true := hd c (by simp)
    have hge := decimalFrom_ge cs (n * 10 + (c.toNat - 48))
    have e : decimalFrom n (c :: cs) = decimalFrom (n * 10 + (c.toNat - 48)) cs := rfl
    rw [e] at hlt ⊢
    have h1 : ¬ n ≥ (2 ^ 64 - 1) / 10 + 1 := by norm_num; omega
    have h2 : n * 10 % 2 ^ 64 = n * 10 := Nat.mod_eq_of_lt (by omega)
    have h3 : (n * 10 + (c.toNat - 48)) % 2 ^ 64 = n * 10 + (c.toNat - 48) :=
      Nat.mod_eq_of_lt (by omega)
    have h4 : ¬ (n * 10 + (c.toNat - 48) < n * 10 ∨ n * 10 + (c.toNat - 48) > 2 ^ 64 - 1) := by
      omega
    rw [parseUintLoop]
    simp only [hc, if_true, h1, if_false, h2, h3, h4]
    exact ih _ (fun x hx => hd x (by simp [hx])) hlt

/-- `ParseInt` on a non-empty string of digits whose value fits `int64`. -/
theorem ParseInt_digits (s : Bytes) (hne : s ≠ []) (hd : ∀ x ∈ s, isDigit x = true)
    (hfit : decimal s < 2 ^ 63) : ParseInt s = ((decimal s : Int), none) := by
  rcases s with _ | ⟨c, cs⟩
  · exact absurd rfl hne
  · have hc : isDigit c = true := hd c (by simp)
    have hc' : 48 ≤ c.toNat ∧ c.toNat ≤ 57 := by
      simpa [isDigit] using hc
    have h43 : (c == 43) = false := by
      rw [beq_eq_false_iff_ne]; intro h; rw [h] at hc'; revert hc'; decide
    have h45 : (c == 45) = false := by
      rw [beq_eq_false_iff_ne]; intro h; rw [h] at hc'; revert hc'; decide
    have hu : ParseUint (c :: cs) = (decimal (c :: cs), none) := by
      simp only [ParseUint, List.isEmpty_cons, Bool.false_eq_true, if_false]
      exact parseUintLoop_digits _ 0 hd (by unfold decimal at hfit; omega)
    simp only [ParseInt, h43, h45, Bool.false_eq_true, or_self, if_false, hu]
    have h63 : decimal (c :: cs) < 9223372036854775808 := by
      have : (2 : Nat) ^ 63 = 9223372036854775808 := by norm_num
      omega
    simp [h63]

theorem splitAux_no_sep (sep : UInt8) : ∀ (s cur : Bytes), (∀ x ∈ s, x ≠ sep) →
    splitAux sep cur s = [cur.reverse ++ s] := by
  intro s
  induction s with
  | nil => intro cur _; simp [splitAux]
  | cons b bs ih =>
    intro cur h
    have hb : (b == sep) = false := by rw [beq_eq_false_iff_ne]; exact h b (by simp)
    rw [splitAux]
    simp only [hb, Bool.false_eq_true, if_false]
    rw [ih _ (fun x hx => h x (by simp [hx]))]
    simp

theorem splitAux_one_sep (sep : UInt8) : ∀ (s cur t : Bytes), (∀ x ∈ s, x ≠ sep) →
    (∀ x ∈ t, x ≠ sep) → splitAux sep cur (s ++ sep :: t) = [cur.reverse ++ s, t] := by
  intro s
  induction s with
  | nil =>
    intro cur t _ ht
    simp only [List.nil_append, splitAux, beq_self_eq_true, if_true, List.append_nil]
    rw [splitAux_no_sep sep t [] ht]
    simp
  | cons b bs ih =>
    intro cur t h ht
    have hb : (b == sep) = false := by rw [beq_eq_false_iff_ne]; exact h b (by simp)
    rw [List.cons_append, splitAux]
    simp only [hb, Bool.false_eq_true, if_false]
    rw [ih _ _ (fun x hx => h x (by simp [hx])) ht]
    simp

theorem isDigit_ne_dot (x : UInt8) (h : isDigit x = true) : x ≠ 46 := by
  intro hx; rw [hx] at h; revert h; decide

/-- When the first match of the pattern is itself a string of digits, a dot and a string
of digits, both values fitting `int64`, `parseTimestamp` returns `Unix` of the two values:
the digits after the dot are read as a whole number of nanoseconds. -/
theorem parseTimestamp_of_dotted_match (now : Time) (p : Parser) (S F : Bytes)
    (hm : FindString timestampRe p.buff = S ++ 46 :: F)
    (hS : ∀ x ∈ S, isDigit x = true) (hF : ∀ x ∈ F, isDigit x = true)
    (hSne : S ≠ []) (hFne : F ≠ [])
    (hSfit : decimal S < 2 ^ 63) (hFfit : decimal F < 2 ^ 63) :
    p.parseTimestamp now = .ret (Unix (decimal S) (decimal F), none) := by
  have hsplit : Split (S ++ 46 :: F) 46 = [S, F] := by
    rw [Split, splitAux_one_sep 46 S [] F (fun x hx => isDigit_ne_dot x (hS x hx))
      (fun x hx => isDigit_ne_dot x (hF x hx))]
    simp
  simp only [Parser.parseTimestamp, hm, hsplit]
  rw [if_neg (by simp)]
  simp [ParseInt_digits S hSne hS hSfit, ParseInt_digits F hFne hF hFfit]

/-- A substring of the timestamp shape has its dot in the text, at least ten places after
its start, with digits between. -/
theorem timestampShape_dot (buff pre t post : Bytes) (h : buff = pre ++ t ++ post)
    (ht : TimestampShape t) :
    ∃ k, pre.length + 10 ≤ k ∧ buff[k]? = some 46 ∧
      ∀ i, pre.length ≤ i → i < k → ∃ x, buff[i]? = some x ∧ isDigit x = true := by
  obtain ⟨S, F, rfl, hS, hSd, -, -⟩ := ht
  refine ⟨pre.length + S.length, by omega, ?_, ?_⟩
  · rw [h]
    simp only [List.append_assoc]
    rw [List.getElem?_append_right (by omega)]
    rw [show pre.length + S.length - pre.length = S.length by omega]
    rw [List.getElem?_append_right (le_refl _)]
    simp
  · intro i h1 h2
    have hi : i - pre.length < S.length := by omega
    refine ⟨S[i - pre.length], ?_, hSd _ (List.getElem_mem _)⟩
    rw [h]
    simp only [List.append_assoc]
    rw [List.getElem?_append_right h1]
    rw [List.getElem?_append_left hi]
    simp

/-- A text without dot has no substring of the timestamp shape. -/
theorem no_timestampShape_of_no_dot (buff : Bytes) (h : ∀ x ∈ buff, x ≠ 46) :
    ¬ ∃ pre t post, buff = pre ++ t ++ post ∧ TimestampShape t := by
  rintro ⟨pre, t, post, hb, ht⟩
  obtain ⟨k, -, hk, -⟩ := timestampShape_dot buff pre t post hb ht
  exact h 46 (List.getElem?_mem hk) rfl

/-- In a text whose only dot is at `k` and whose byte at `j < k` is no digit, no substring
of the timestamp shape starts at or before `j`. -/
theorem timestampShape_after (buff : Bytes) (j k : Nat) (hjk : j < k)
    (hdot : (List.range buff.length).all (fun i => buff[i]? != some 46 || i == k) = true)
    (hj : ∀ x, buff[j]? = some x → isDigit x = false)
    (pre t post : Bytes) (h : buff = pre ++ t ++ post) (ht : TimestampShape t) :
    j + 1 ≤ pre.length := by
  obtain ⟨k', hk1, hk2, hk3⟩ := timestampShape_dot buff pre t post h ht
  have hk'len : k' < buff.length := by
    by_contra hge
    rw [List.getElem?_eq_none (by omega)] at hk2
    cases hk2
  have hk' : k' = k := by
    simp only [List.all_eq_true, List.mem_range, Bool.or_eq_true, bne_iff_ne, ne_eq,
      beq_iff_eq] at hdot
    rcases hdot k' hk'len with h1 | h1
    · exact absurd hk2 h1
    · exact h1
  subst hk'
  by_contra hlt
  obtain ⟨x, hx, hxd⟩ := hk3 j (by omega) hjk
  rw [hj x hx] at hxd
  cases hxd

/-! ## The claims -/

/-- C1. For every buffer, `Parse` on a fresh parser returns an error `e` exactly when the
priority scanner returns `e`, else the version scanner returns `e`, else timestamp
extraction returns `e` (the error is the step's error unchanged); and when header assembly
returns `ErrHostnameNotFound`, `Parse` returns nil. -/
theorem parse_error_iff_fatal_step (sc : Scanner) (now : Time) (buff : Bytes) :
    (∀ e : Err,
      (∃ p', (NewParser buff).Parse sc now = .ret (some e, p')) ↔
        ((∃ v se c, sc.ParsePriority buff 0 buff.length = ((v, some se), c) ∧ e = .scan se) ∨
         (∃ pri c1 v se c, sc.ParsePriority buff 0 buff.length = ((pri, none), c1) ∧
            sc.ParseVersion buff c1 buff.length = ((v, some se), c) ∧ e = .scan se) ∨
         (∃ pri c1 ver c2 ts, sc.ParsePriority buff 0 buff.length = ((pri, none), c1) ∧
            sc.ParseVersion buff c1 buff.length = ((ver, none), c2) ∧
            (NewParser buff).parseTimestamp now = .ret (ts, some e)))) ∧
    (∀ hdr q, (NewParser buff).parseHeader sc now = .ret ((hdr, some .ErrHostnameNotFound), q) →
      ∃ p', (NewParser buff).Parse sc now = .ret (none, p')) := by
  constructor
  · intro e
    constructor
    · rintro ⟨p', hp⟩
      rcases hpri : sc.ParsePriority buff 0 buff.length with ⟨⟨pri, _ | se⟩, c1⟩
      · rcases hver : sc.ParseVersion buff c1 buff.length with ⟨⟨ver, _ | se⟩, c2⟩
        · right; right
          refine ⟨pri, c1, ver, c2, ?_⟩
          have hh := parseHeader_scanned sc now (NewParser buff) pri c1 ver c2 hpri hver
          have hb : (NewParser buff).buff = buff := rfl
          rw [hb] at hh
          cases hts : (NewParser buff).parseTimestamp now with
          | ret r =>
            obtain ⟨ts, _ | terr⟩ := r
            · exfalso
              by_cases hhost : FindString hostnameRe buff = []
              · rw [parse_no_hostname sc now buff pri c1 ver c2 ts hpri hver hts hhost] at hp
                simp at hp
              · cases happ : (NewParser buff).parseAppName (FindString hostnameRe buff) with
                | ret r =>
                  obtain ⟨app, _ | aerr⟩ := r
                  · rw [parse_hostname sc now buff pri c1 ver c2 ts app hpri hver hts hhost happ] at hp
                    simp at hp
                  · exact parseAppName_noerr _ _ _ _ happ
                | indexOutOfRange j n =>
                  have hhn : (NewParser buff).parseHostname = (FindString hostnameRe buff, none) := by
                    simp [Parser.parseHostname, NewParser, hhost]
                  rw [hts] at hh
                  simp only [hhn, happ] at hh
                  simp [Parser.Parse, hh] at hp
                | sliceOutOfRange j n =>
                  have hhn : (NewParser buff).parseHostname = (FindString hostnameRe buff, none) := by
                    simp [Parser.parseHostname, NewParser, hhost]
                  rw [hts] at hh
                  simp only [hhn, happ] at hh
                  simp [Parser.Parse, hh] at hp
            · rw [parse_timestamp_err sc now buff pri c1 ver c2 ts terr hpri hver hts] at hp
              simp only [Result.ret.injEq, Prod.mk.injEq, Option.some.injEq] at hp
              exact ⟨ts, rfl, hver, by rw [hp.1]⟩
          | indexOutOfRange j n =>
            rw [hts] at hh
            simp [Parser.Parse, hh] at hp
          | sliceOutOfRange j n =>
            rw [hts] at hh
            simp [Parser.Parse, hh] at hp
        · right; left
          rw [parse_version_err sc now buff pri c1 ver se c2 hpri hver] at hp
          simp only [Result.ret.injEq, Prod.mk.injEq, Option.some.injEq] at hp
          exact ⟨pri, c1, ver, se, c2, rfl, hver, hp.1.symm⟩
      · left
        rw [parse_priority_err sc now buff pri se c1 hpri] at hp
        simp only [Result.ret.injEq, Prod.mk.injEq, Option.some.injEq] at hp
        exact ⟨pri, se, c1, rfl, hp.1.symm⟩
    · rintro (⟨v, se, c, h, rfl⟩ | ⟨pri, c1, v, se, c, h1, h2, rfl⟩ | ⟨pri, c1, ver, c2, ts, h1, h2, h3⟩)
      · exact ⟨_, parse_priority_err sc now buff v se c h⟩
      · exact ⟨_, parse_version_err sc now buff pri c1 v se c h1 h2⟩
      · exact ⟨_, parse_timestamp_err sc now buff pri c1 ver c2 ts e h1 h2 h3⟩
  · intro hdr q h
    have hq := parseHeader_frame sc now _ _ _ h
    rw [parse_of_header sc now _ _ _ _ h]
    simp only [ne_eq, not_true_eq_false, and_false, if_false]
    by_cases hc : q.cursor < q.l
    · have hl : q.l = buff.length := by rw [hq]; rfl
      have hbq : q.buff = buff := by rw [hq]; rfl
      rw [if_pos hc, hbq, sliceFrom_nat buff q.cursor (by omega)]
      exact ⟨_, rfl⟩
    · rw [if_neg hc]
      exact ⟨_, rfl⟩

/-- C9. Whenever `Parse` returns an error, the header, the structured data and the message
of the parser are as before the call; `Parse` does return an error when the priority scanner
fails; and after a failed `Parse` of a fresh parser `Dump` holds only zero and empty values. -/
theorem parse_error_leaves_record (sc : Scanner) (now : Time) (p : Parser) (buff : Bytes) :
    (∀ e p', p.Parse sc now = .ret (some e, p') →
      p'.header = p.header ∧ p'.structuredData = p.structuredData ∧ p'.message = p.message) ∧
    (∀ v se c, sc.ParsePriority p.buff p.cursor p.l = ((v, some se), c) →
      ∃ p', p.Parse sc now = .ret (some (.scan se), p')) ∧
    (∀ e p', (NewParser buff).Parse sc now = .ret (some e, p') →
      p'.Dump = { priority := 0, facility := 0, severity := 0, version := 0, timestamp := {}
                  hostname := [], app_name := [], proc_id := [], msg_id := []
                  structured_data := [], message := [] }) := by
  have key : ∀ (p : Parser) e p', p.Parse sc now = .ret (some e, p') →
      p'.header = p.header ∧ p'.structuredData = p.structuredData ∧ p'.message = p.message := by
    intro p e p' h
    cases hh : p.parseHeader sc now with
    | ret r =>
      obtain ⟨⟨hdr, err⟩, q⟩ := r
      have hq := parseHeader_frame sc now _ _ _ hh
      rw [parse_of_header sc now _ _ _ _ hh] at h
      split_ifs at h with h1 h2
      · simp only [Result.ret.injEq, Prod.mk.injEq] at h
        rw [← h.2, hq]
        exact ⟨rfl, rfl, rfl⟩
      · split at h <;> simp at h
      · simp at h
    | indexOutOfRange j n => simp [Parser.Parse, hh] at h
    | sliceOutOfRange j n => simp [Parser.Parse, hh] at h
  refine ⟨key p, ?_, ?_⟩
  · intro v se c h
    have hh := parseHeader_priority_err sc now p v se c h
    rw [parse_of_header sc now _ _ _ _ hh]
    simp
  · intro e p' h
    obtain ⟨h1, h2, h3⟩ := key _ e p' h
    simp only [Parser.Dump, h1, h2, h3]
    rfl

set_option maxRecDepth 100000 in
theorem scenario_timestamp (now : Time) :
    (NewParser scenarioInput).parseTimestamp now = .ret (Unix 1700000000 1, none) := by rfl

set_option maxRecDepth 100000 in
theorem scenario_hostname : FindString hostnameRe scenarioInput = scenarioHost := by rfl

set_option maxRecDepth 100000 in
theorem scenario_appName :
    (NewParser scenarioInput).parseAppName scenarioHost = .ret (str "status_report", none) := by rfl

set_option maxRecDepth 100000 in
theorem scenarioHost_ne_nil : scenarioHost ≠ [] := by decide

set_option maxRecDepth 100000 in
theorem overflowInput_no_hostname : FindString hostnameRe overflowInput = [] := by rfl

set_option maxRecDepth 100000 in
theorem overflowInput_parse :
    (NewParser overflowInput).Parse refScanner sampleNow =
      .ret (some (.numError "ParseInt" (str "99999999999999999999") .ErrRange),
        { NewParser overflowInput with cursor := 7 }) := by rfl

/-- C2, as stated, fails: on `<134>1 99999999999999999999.123456 no host` both scanners
succeed and the text has no substring of the hostname shape, yet `Parse` returns an error
(the seconds of the timestamp token do not fit `int64`). -/
theorem no_hostname_yet_parse_fails :
    refScanner.ParsePriority overflowInput 0 overflowInput.length
      = (({ P := 134, F := ⟨16⟩, S := ⟨6⟩ }, none), 5) ∧
    refScanner.ParseVersion overflowInput 5 overflowInput.length = ((1, none), 6) ∧
    (¬ ∃ pre t post, overflowInput = pre ++ t ++ post ∧ HostnameShape t) ∧
    (NewParser overflowInput).Parse refScanner sampleNow =
      .ret (some (.numError "ParseInt" (str "99999999999999999999") .ErrRange),
        { NewParser overflowInput with cursor := 7 }) :=
  ⟨by rfl, by rfl, (findString_hostname_nil_iff _).mp overflowInput_no_hostname,
    overflowInput_parse⟩

/-- C2, amended. For every buffer on which the priority scanner, the version scanner and
timestamp extraction succeed and which has no substring of the hostname shape, `Parse`
returns nil, the dumped hostname and app_name are empty, the dumped priority, facility,
severity and version are the scanners' values, and the timestamp is the instant that
timestamp extraction returned: the clock reading or a value built by `Unix`. -/
theorem parse_without_hostname (sc : Scanner) (now : Time) (buff : Bytes) (pri : Priority)
    (c1 : Nat) (ver : Int) (c2 : Nat) (ts : Time)
    (hpri : sc.ParsePriority buff 0 buff.length = ((pri, none), c1))
    (hver : sc.ParseVersion buff c1 buff.length = ((ver, none), c2))
    (hts : (NewParser buff).parseTimestamp now = .ret (ts, none))
    (hno : ¬ ∃ pre t post, buff = pre ++ t ++ post ∧ HostnameShape t) :
    ∃ p', (NewParser buff).Parse sc now = .ret (none, p') ∧
      p'.Dump.hostname = [] ∧ p'.Dump.app_name = [] ∧
      p'.Dump.priority = pri.P ∧ p'.Dump.facility = pri.F.Value ∧
      p'.Dump.severity = pri.S.Value ∧ p'.Dump.version = ver ∧ p'.Dump.timestamp = ts ∧
      (ts = now ∨ ∃ sec nano, ts = Unix sec nano) := by
  have hhost := (findString_hostname_nil_iff buff).mpr hno
  refine ⟨_, parse_no_hostname sc now buff pri c1 ver c2 ts hpri hver hts hhost,
    rfl, rfl, rfl, rfl, rfl, rfl, rfl, ?_⟩
  rcases parseTimestamp_ok now _ ts hts with ⟨-, h⟩ | ⟨-, h⟩
  · exact Or.inl h
  · exact Or.inr h

set_option maxRecDepth 100000 in
theorem plain_no_hostname : FindString hostnameRe (str "<134>1" ++ 32 :: plainText) = [] := by rfl

set_option maxRecDepth 100000 in
theorem plain_timestamp :
    (NewParser (str "<134>1" ++ 32 :: plainText)).parseTimestamp sampleNow
      = .ret (sampleNow, none) := by rfl

/-- C2, amended, at `<134>1 plain text without any uuid token`. -/
theorem parse_without_hostname_witness :
    ∃ p', (NewParser (str "<134>1" ++ 32 :: plainText)).Parse refScanner sampleNow = .ret (none, p') ∧
      p'.Dump.hostname = [] ∧ p'.Dump.app_name = [] ∧
      p'.Dump.priority = 134 ∧ p'.Dump.facility = 16 ∧
      p'.Dump.severity = 6 ∧ p'.Dump.version = 1 ∧ p'.Dump.timestamp = sampleNow ∧
      (sampleNow = sampleNow ∨ ∃ sec nano, sampleNow = Unix sec nano) :=
  parse_without_hostname refScanner sampleNow (str "<134>1" ++ 32 :: plainText)
    { P := 134, F := ⟨16⟩, S := ⟨6⟩ } 5 1 6 sampleNow (by rfl) (by rfl) plain_timestamp
    ((findString_hostname_nil_iff _).mp plain_no_hostname)

set_option maxRecDepth 100000 in
theorem scenario_parse :
    (NewParser scenarioInput).Parse refScanner sampleNow =
      .ret (none, { NewParser scenarioInput with
                    cursor := 7
                    header := { priority := { P := 134, F := ⟨16⟩, S := ⟨6⟩ }, version := 1
                                timestamp := Unix 1700000000 1, hostname := scenarioHost
                                appName := str "status_report" }
                    message := scenarioInput.drop 7 }) := by rfl

set_option maxRecDepth 100000 in
theorem scenario_drop : scenarioInput.drop 7 =
    str "1700000000.000001 3fa85f64-5717-4562-b3fc-2c963f66afa6_sensor01 status_report rest of payload" := by
  rfl

/-- C3, as stated, fails: on the scenario input `Parse` returns nil and the dumped message
is the whole text after `<134>1 `, timestamp, hostname and app name included, not
`rest of payload`. -/
theorem scenario_message_keeps_header_text :
    ∃ p', (NewParser scenarioInput).Parse refScanner sampleNow = .ret (none, p') ∧
      p'.Dump.message =
        str "1700000000.000001 3fa85f64-5717-4562-b3fc-2c963f66afa6_sensor01 status_report rest of payload" ∧
      p'.Dump.message ≠ str "rest of payload" :=
  ⟨_, scenario_parse, scenario_drop, by rw [show ∀ p : Parser, p.Dump.message = p.message from fun _ => rfl]; simp only [scenario_drop]; decide⟩

/-- C3, amended. After a successful `Parse` of a fresh parser the message is the raw text
of the buffer from one byte past the position where the version scanner stopped, whatever
header fields were extracted from it, and it is empty when that position is at or past the
end of the buffer. -/
theorem parse_message_after_version (sc : Scanner) (now : Time) (buff : Bytes) (pri : Priority)
    (c1 : Nat) (ver : Int) (c2 : Nat) (p' : Parser)
    (hpri : sc.ParsePriority buff 0 buff.length = ((pri, none), c1))
    (hver : sc.ParseVersion buff c1 buff.length = ((ver, none), c2))
    (h : (NewParser buff).Parse sc now = .ret (none, p')) :
    p'.Dump.message = buff.drop (c2 + 1) ∧ (buff.length ≤ c2 + 1 → p'.Dump.message = []) := by
  obtain ⟨ts, host, app, -, hp, -⟩ := parse_ok_shape sc now buff pri c1 ver c2 p' hpri hver h
  have hm : p'.Dump.message = if c2 + 1 < buff.length then buff.drop (c2 + 1) else [] := by
    rw [hp]; rfl
  constructor
  · rw [hm]
    split_ifs with hc
    · rfl
    · rw [List.drop_of_length_le (by omega)]
  · intro hle
    rw [hm, if_neg (by omega)]

/-- C3, amended, at the scenario input: the message is the text after `<134>1 `. -/
theorem parse_message_after_version_witness :
    (NewParser scenarioInput).Parse refScanner sampleNow = .ret (none,
      { NewParser scenarioInput with
                    cursor := 7
                    header := { priority := { P := 134, F := ⟨16⟩, S := ⟨6⟩ }, version := 1
                                timestamp := Unix 1700000000 1, hostname := scenarioHost
                                appName := str "status_report" }
                    message := scenarioInput.drop 7 }) ∧
    (scenarioInput.drop 7 = scenarioInput.drop (6 + 1) ∧
      (scenarioInput.length ≤ 6 + 1 → scenarioInput.drop 7 = [])) :=
  ⟨scenario_parse,
    parse_message_after_version refScanner sampleNow scenarioInput { P := 134, F := ⟨16⟩, S := ⟨6⟩ }
      5 1 6 _ (by rfl) (by rfl) scenario_parse⟩

/-- C4. On the scenario input, with scanners that decode `<134>1` as priority 134
(facility 16, severity 6) and version 1, `Parse` returns nil and `Dump` gives facility 16,
severity 6, version 1, the hostname `3fa85f64-5717-4562-b3fc-2c963f66afa6_sensor01`, the
app name `status_report` and the timestamp `Unix(1700000000, 1)`. -/
theorem scenario_header_fields (sc : Scanner) (now : Time) (c1 c2 : Nat)
    (hpri : sc.ParsePriority scenarioInput 0 scenarioInput.length =
      (({ P := 134, F := ⟨16⟩, S := ⟨6⟩ }, none), c1))
    (hver : sc.ParseVersion scenarioInput c1 scenarioInput.length = ((1, none), c2)) :
    ∃ p', (NewParser scenarioInput).Parse sc now = .ret (none, p') ∧
      p'.Dump.priority = 134 ∧ p'.Dump.facility = 16 ∧ p'.Dump.severity = 6 ∧
      p'.Dump.version = 1 ∧
      p'.Dump.hostname = str "3fa85f64-5717-4562-b3fc-2c963f66afa6_sensor01" ∧
      p'.Dump.app_name = str "status_report" ∧ p'.Dump.timestamp = Unix 1700000000 1 := by
  have hhost : FindString hostnameRe scenarioInput ≠ [] := by
    rw [scenario_hostname]; exact scenarioHost_ne_nil
  have happ : (NewParser scenarioInput).parseAppName (FindString hostnameRe scenarioInput)
      = .ret (str "status_report", none) := by
    rw [scenario_hostname]; exact scenario_appName
  refine ⟨_, parse_hostname sc now scenarioInput _ c1 1 c2 _ _ hpri hver (scenario_timestamp now)
    hhost happ, rfl, rfl, rfl, rfl, ?_, rfl, rfl⟩
  exact scenario_hostname

/-- C4 with the reference scanner. -/
theorem scenario_header_fields_witness :
    ∃ p', (NewParser scenarioInput).Parse refScanner sampleNow = .ret (none, p') ∧
      p'.Dump.priority = 134 ∧ p'.Dump.facility = 16 ∧ p'.Dump.severity = 6 ∧
      p'.Dump.version = 1 ∧
      p'.Dump.hostname = str "3fa85f64-5717-4562-b3fc-2c963f66afa6_sensor01" ∧
      p'.Dump.app_name = str "status_report" ∧ p'.Dump.timestamp = Unix 1700000000 1 :=
  scenario_header_fields refScanner sampleNow 5 6 (by rfl) (by rfl)

/-- C5. For every buffer made of a prefix, a space and a text, on which the priority
scanner succeeds and the version scanner succeeds leaving the cursor at the end of the
prefix (on the space), and which has neither a substring of the hostname shape nor a run
of ten or more decimal digits, `Parse` returns nil, the dumped hostname and app_name are
empty, the timestamp is the clock reading, and the message is the whole text after the
space. -/
theorem parse_plain_text (sc : Scanner) (now : Time) (pfx text : Bytes) (pri : Priority)
    (c1 : Nat) (ver : Int)
    (hpri : sc.ParsePriority (pfx ++ 32 :: text) 0 (pfx ++ 32 :: text).length = ((pri, none), c1))
    (hver : sc.ParseVersion (pfx ++ 32 :: text) c1 (pfx ++ 32 :: text).length
      = ((ver, none), pfx.length))
    (hno : ¬ ∃ pre t post, pfx ++ 32 :: text = pre ++ t ++ post ∧ HostnameShape t)
    (hdig : ¬ HasDigitRun 10 (pfx ++ 32 :: text)) :
    ∃ p', (NewParser (pfx ++ 32 :: text)).Parse sc now = .ret (none, p') ∧
      p'.Dump.hostname = [] ∧ p'.Dump.app_name = [] ∧ p'.Dump.timestamp = now ∧
      p'.Dump.message = text := by
  have hhost := (findString_hostname_nil_iff _).mpr hno
  have hts : (NewParser (pfx ++ 32 :: text)).parseTimestamp now = .ret (now, none) := by
    simp [Parser.parseTimestamp, NewParser, findString_timestamp_nil _ hdig]
  refine ⟨_, parse_no_hostname sc now _ pri c1 ver pfx.length now hpri hver hts hhost,
    rfl, rfl, rfl, ?_⟩
  show (if pfx.length + 1 < (pfx ++ 32 :: text).length
    then (pfx ++ 32 :: text).drop (pfx.length + 1) else []) = text
  have hdrop : (pfx ++ 32 :: text).drop (pfx.length + 1) = text := by
    rw [show pfx ++ 32 :: text = (pfx ++ [32]) ++ text by simp]
    rw [List.drop_left' (by simp)]
  split_ifs with hc
  · exact hdrop
  · have : text.length = 0 := by
      simp only [List.length_append, List.length_cons] at hc; omega
    exact (List.eq_nil_of_length_eq_zero this).symm

set_option maxRecDepth 100000 in
theorem plain_no_digit_run : ¬ HasDigitRun 10 (str "<134>1" ++ 32 :: plainText) :=
  not_hasDigitRun _ (by rfl)

/-- C5 at `<134>1 plain text without any uuid token`. -/
theorem parse_plain_text_witness :
    ∃ p', (NewParser (str "<134>1" ++ 32 :: plainText)).Parse refScanner sampleNow = .ret (none, p') ∧
      p'.Dump.hostname = [] ∧ p'.Dump.app_name = [] ∧ p'.Dump.timestamp = sampleNow ∧
      p'.Dump.message = plainText :=
  parse_plain_text refScanner sampleNow (str "<134>1") plainText { P := 134, F := ⟨16⟩, S := ⟨6⟩ }
    5 1 (by rfl) (by rfl) ((findString_hostname_nil_iff _).mp plain_no_hostname)
    plain_no_digit_run

theorem HostnameShape.length_ge {t : Bytes} (h : HostnameShape t) : 38 ≤ t.length := by
  obtain ⟨a, b, c, d, e, w, rfl, ha, hb, hc, hd, he, -, -, -, -, -, hw, -⟩ := h
  have : 1 ≤ w.length := by
    rcases w with _ | ⟨x, w⟩
    · exact absurd rfl hw
    · simp
  simp only [List.length_append, List.length_cons]
  omega

set_option maxRecDepth 100000 in
theorem numbersThenTimestamp_first :
    FirstTimestampToken numbersThenTimestamp (str "<134>1 id=12345678901 1234567 ts=")
      (str "1700000000.123456") := by
  refine ⟨⟨[], by rfl⟩, ⟨str "1700000000", str "123456", by rfl, by decide, by decide, by decide,
    by decide⟩, ?_⟩
  intro pre' t' post' h ht
  have := timestampShape_after numbersThenTimestamp 32 43 (by omega) (by rfl)
    (fun x hx => by
      have h32 : numbersThenTimestamp[32]? = some 61 := by rfl
      rw [h32] at hx
      simp only [Option.some.injEq] at hx
      rw [← hx]; rfl) pre' t' post' h ht
  have hlen : (str "<134>1 id=12345678901 1234567 ts=").length = 33 := by rfl
  omega

set_option maxRecDepth 100000 in
theorem longDigitRunThenOverflow_first :
    FirstTimestampToken longDigitRunThenOverflow (str "<134>1 seq=12345678901234567 ts=")
      (str "99999999999999999999.123456") := by
  refine ⟨⟨[], by rfl⟩, ⟨str "99999999999999999999", str "123456", by rfl, by decide, by decide,
    by decide, by decide⟩, ?_⟩
  intro pre' t' post' h ht
  have := timestampShape_after longDigitRunThenOverflow 31 52 (by omega) (by rfl)
    (fun x hx => by
      have h31 : longDigitRunThenOverflow[31]? = some 61 := by rfl
      rw [h31] at hx
      simp only [Option.some.injEq] at hx
      rw [← hx]; rfl) pre' t' post' h ht
  have hlen : (str "<134>1 seq=12345678901234567 ts=").length = 32 := by rfl
  omega

set_option maxRecDepth 100000 in
/-- C6: the code at `<134>1 id=12345678901 1234567 ts=1700000000.123456`. The first
substring of ten or more digits, a dot and six or more digits is `1700000000.123456` and
both its parts fit `int64`. The dot of the pattern is not escaped, so the first match is
`12345678901 1234567`; it has no `.`, the whole of it is read as the seconds, and
`parseTimestamp` returns the syntax error of `ParseInt` instead of
`Unix(1700000000, 123456)`. -/
theorem timestamp_token_preempted :
    FirstTimestampToken numbersThenTimestamp (str "<134>1 id=12345678901 1234567 ts=")
      (str "1700000000" ++ 46 :: str "123456") ∧
    decimal (str "1700000000") = 1700000000 ∧ decimal (str "123456") = 123456 ∧
    FindString timestampRe numbersThenTimestamp = str "12345678901 1234567" ∧
    (NewParser numbersThenTimestamp).parseTimestamp sampleNow =
      .ret ({}, some (.numError "ParseInt" (str "12345678901 1234567") .ErrSyntax)) ∧
    (NewParser numbersThenTimestamp).parseTimestamp sampleNow ≠
      .ret (Unix 1700000000 123456, none) := by
  refine ⟨numbersThenTimestamp_first, by rfl, by rfl, by rfl, by rfl, ?_⟩
  rw [show (NewParser numbersThenTimestamp).parseTimestamp sampleNow =
      .ret ({}, some (.numError "ParseInt" (str "12345678901 1234567") .ErrSyntax)) by rfl]
  simp

set_option maxRecDepth 100000 in
/-- C7: the code at `<134>1 seq=12345678901234567 up`. The text has no dot, so no
substring of ten or more digits, a dot and six or more digits, yet the pattern matches the
run of seventeen digits (its dot takes a digit); `Split` gives one part and `timeparts[1]`
panics, instead of the clock reading being returned. -/
theorem timestamp_without_dot_panics :
    (¬ ∃ pre t post, longDigitRun = pre ++ t ++ post ∧ TimestampShape t) ∧
    FindString timestampRe longDigitRun = str "12345678901234567" ∧
    (∀ x ∈ FindString timestampRe longDigitRun, x ≠ 46) ∧
    Split (str "12345678901234567") 46 = [str "12345678901234567"] ∧
    (NewParser longDigitRun).parseTimestamp sampleNow = .indexOutOfRange 1 1 ∧
    (NewParser longDigitRun).Parse refScanner sampleNow = .indexOutOfRange 1 1 := by
  refine ⟨no_timestampShape_of_no_dot _ (by decide), by rfl, ?_, by rfl, by rfl, by rfl⟩
  rw [show FindString timestampRe longDigitRun = str "12345678901234567" by rfl]
  decide

set_option maxRecDepth 100000 in
/-- C8: the code at `<134>1 seq=12345678901234567 ts=99999999999999999999.123456`. Both
scanners succeed, and the first substring of ten or more digits, a dot and six or more
digits is `99999999999999999999.123456`, whose seconds `ParseInt` rejects as out of range;
yet `Parse` returns no error: the pattern first matches the run of seventeen digits and
`timeparts[1]` panics. -/
theorem overflow_token_preempted_panics :
    refScanner.ParsePriority longDigitRunThenOverflow 0 longDigitRunThenOverflow.length
      = (({ P := 134, F := ⟨16⟩, S := ⟨6⟩ }, none), 5) ∧
    refScanner.ParseVersion longDigitRunThenOverflow 5 longDigitRunThenOverflow.length
      = ((1, none), 6) ∧
    FirstTimestampToken longDigitRunThenOverflow (str "<134>1 seq=12345678901234567 ts=")
      (str "99999999999999999999" ++ 46 :: str "123456") ∧
    (ParseInt (str "99999999999999999999")).2 =
      some (.numError "ParseInt" (str "99999999999999999999") .ErrRange) ∧
    FindString timestampRe longDigitRunThenOverflow = str "12345678901234567" ∧
    (NewParser longDigitRunThenOverflow).parseTimestamp sampleNow = .indexOutOfRange 1 1 ∧
    (NewParser longDigitRunThenOverflow).Parse refScanner sampleNow = .indexOutOfRange 1 1 := by
  refine ⟨by rfl, by rfl, longDigitRunThenOverflow_first, by rfl, by rfl, by rfl, by rfl⟩

/-- C10. `parseHostname` returns `ErrHostnameNotFound` with an empty hostname exactly when
the buffer has no substring of the hostname shape; otherwise it returns, without error, a
non-empty substring of the buffer that has the hostname shape (so at least 38 bytes), that
no word character follows, and before whose start no substring of the hostname shape
starts. -/
theorem parseHostname_leftmost_shape (p : Parser) :
    (p.parseHostname = ([], some .ErrHostnameNotFound) ↔
      ¬ ∃ pre t post, p.buff = pre ++ t ++ post ∧ HostnameShape t) ∧
    (p.parseHostname = ([], some .ErrHostnameNotFound) ∨
      ∃ h pre post, p.parseHostname = (h, none) ∧ h ≠ [] ∧ p.buff = pre ++ h ++ post ∧
        HostnameShape h ∧ 38 ≤ h.length ∧
        (∀ b post', post = b :: post' → isWord b = false) ∧
        (∀ pre' t' post', p.buff = pre' ++ t' ++ post' → HostnameShape t' →
          pre.length ≤ pre'.length)) := by
  have hiff := findString_hostname_nil_iff p.buff
  by_cases h0 : FindString hostnameRe p.buff = []
  · have hp : p.parseHostname = ([], some .ErrHostnameNotFound) := by
      simp [Parser.parseHostname, h0]
    exact ⟨⟨fun _ => hiff.mp h0, fun _ => hp⟩, Or.inl hp⟩
  · have hp : p.parseHostname = (FindString hostnameRe p.buff, none) := by
      simp [Parser.parseHostname, h0]
    refine ⟨⟨fun h => ?_, fun h => absurd (hiff.mpr h) h0⟩, Or.inr ?_⟩
    · rw [hp] at h; simp at h
    · cases hf : findAux hostnameRe (runes p.buff) with
      | none => simp [FindString, hf] at h0
      | some m =>
        obtain ⟨pre, post, hs, hshape, hmax, hleft⟩ := findString_hostname_some p.buff m hf
        have hfs : FindString hostnameRe p.buff = m.flatten := by simp [FindString, hf]
        rw [hfs] at hp h0
        exact ⟨m.flatten, pre, post, hp, h0, hs, hshape, hshape.length_ge, hmax, hleft⟩

set_option maxRecDepth 100000 in
theorem scenario_parseHostname :
    (NewParser scenarioInput).parseHostname = (scenarioHost, none) := by rfl

/-- C10 at the scenario input: the hostname returned has the hostname shape and stands in
the buffer. -/
theorem parseHostname_leftmost_shape_witness :
    ∃ pre post, scenarioInput = pre ++ scenarioHost ++ post ∧ HostnameShape scenarioHost ∧
      38 ≤ scenarioHost.length ∧ (∀ b post', post = b :: post' → isWord b = false) := by
  rcases (parseHostname_leftmost_shape (NewParser scenarioInput)).2 with h | ⟨h, pre, post, hp, -, hs, hshape, hlen, hmax, -⟩
  · rw [scenario_parseHostname] at h
    simp at h
  · rw [scenario_parseHostname] at hp
    simp only [Prod.mk.injEq, and_true] at hp
    subst hp
    exact ⟨pre, post, hs, hshape, hlen, hmax⟩

/-- C1 at two inputs: without priority tag `Parse` returns the scanner's error, and
without hostname `Parse` returns nil. -/
theorem parse_error_iff_fatal_step_witness :
    (∃ p', (NewParser (str "no tag")).Parse refScanner sampleNow
      = .ret (some (.scan (.parserError "bad priority")), p')) ∧
    (∃ p', (NewParser (str "<134>1" ++ 32 :: plainText)).Parse refScanner sampleNow
      = .ret (none, p')) :=
  ⟨((parse_error_iff_fatal_step refScanner sampleNow (str "no tag")).1 _).mpr
      (Or.inl ⟨_, _, _, by rfl, rfl⟩),
    (parse_error_iff_fatal_step refScanner sampleNow (str "<134>1" ++ 32 :: plainText)).2
      { priority := { P := 134, F := ⟨16⟩, S := ⟨6⟩ }, version := 1, timestamp := sampleNow }
      { NewParser (str "<134>1" ++ 32 :: plainText) with cursor := 7 } (by rfl)⟩

/-- C9 at `no tag`: `Parse` returns the scanner's error and `Dump` is empty. -/
theorem parse_error_leaves_record_witness :
    ∃ p', (NewParser (str "no tag")).Parse refScanner sampleNow
        = .ret (some (.scan (.parserError "bad priority")), p') ∧
      p'.Dump = { priority := 0, facility := 0, severity := 0, version := 0, timestamp := {}
                  hostname := [], app_name := [], proc_id := [], msg_id := []
                  structured_data := [], message := [] } := by
  have h := parse_error_leaves_record refScanner sampleNow (NewParser (str "no tag")) (str "no tag")
  obtain ⟨p', hp⟩ := h.2.1 {} (.parserError "bad priority") 0 (by rfl)
  exact ⟨p', hp, h.2.2 _ p' hp⟩

/-! ## `strings.Index` -/

theorem startsWith_iff : ∀ (s t : Bytes), startsWith s t = true ↔ ∃ post, s = t ++ post := by
  intro s t
  induction t generalizing s with
  | nil => simp [startsWith]
  | cons b t ih =>
    cases s with
    | nil => simp [startsWith]
    | cons a s =>
      simp only [startsWith, Bool.and_eq_true, beq_iff_eq, ih, List.cons_append, List.cons.injEq]
      constructor
      · rintro ⟨rfl, post, rfl⟩; exact ⟨post, rfl, rfl⟩
      · rintro ⟨post, rfl, rfl⟩; exact ⟨rfl, post, rfl⟩

/-- `indexFrom` finds the leftmost occurrence, or returns -1 when there is none. -/
theorem indexFrom_spec (sub : Bytes) : ∀ (s : Bytes) (pos : Nat),
    (indexFrom sub pos s = -1 ∧ ¬ ∃ pre post, s = pre ++ sub ++ post) ∨
    (∃ pre post, s = pre ++ sub ++ post ∧ indexFrom sub pos s = ((pos + pre.length : Nat) : Int) ∧
      ∀ pre' post', s = pre' ++ sub ++ post' → pre.length ≤ pre'.length) := by
  intro s
  induction s with
  | nil =>
    intro pos
    cases sub with
    | nil =>
      right
      exact ⟨[], [], rfl, by simp [indexFrom], by simp⟩
    | cons c sub =>
      left
      refine ⟨by simp [indexFrom], ?_⟩
      rintro ⟨pre, post, h⟩
      have := congrArg List.length h
      simp at this
      omega
  | cons b bs ih =>
    intro pos
    by_cases hsw : startsWith (b :: bs) sub = true
    · right
      obtain ⟨post, hpost⟩ := (startsWith_iff _ _).mp hsw
      exact ⟨[], post, by simpa using hpost, by simp [indexFrom, hsw], by simp⟩
    · have hidx : indexFrom sub pos (b :: bs) = indexFrom sub (pos + 1) bs := by
        rw [indexFrom]; simp [hsw]
      have hnot : ∀ post, b :: bs ≠ sub ++ post := fun post h =>
        hsw ((startsWith_iff _ _).mpr ⟨post, h⟩)
      rcases ih (pos + 1) with ⟨h1, h2⟩ | ⟨pre, post, h1, h2, h3⟩
      · left
        refine ⟨by rw [hidx, h1], ?_⟩
        rintro ⟨pre, post, h⟩
        cases pre with
        | nil => exact hnot post (by simpa using h)
        | cons a pre =>
          simp only [List.cons_append, List.cons.injEq] at h
          exact h2 ⟨pre, post, h.2⟩
      · right
        refine ⟨b :: pre, post, by simp [h1], ?_, ?_⟩
        · rw [hidx, h2]; simp; omega
        · intro pre' post' h
          cases pre' with
          | nil => exact absurd (by simpa using h) (hnot post')
          | cons a pre' =>
            simp only [List.cons_append, List.cons.injEq] at h
            have := h3 pre' post' h.2
            simp; omega

/-- `Index` returns -1 exactly when `sub` does not occur in `s`. -/
theorem Index_eq_neg_one_iff (s sub : Bytes) :
    Index s sub = -1 ↔ ¬ ∃ pre post, s = pre ++ sub ++ post := by
  rcases indexFrom_spec sub s 0 with ⟨h1, h2⟩ | ⟨pre, post, h1, h2, -⟩
  · exact ⟨fun _ => h2, fun _ => h1⟩
  · constructor
    · intro h
      rw [Index, h2] at h
      omega
    · intro h
      exact absurd ⟨pre, post, h1⟩ h

/-- `Index` is the start of the leftmost occurrence. -/
theorem Index_of_leftmost (s sub pre post : Bytes) (h : s = pre ++ sub ++ post)
    (hleft : ∀ pre' post', s = pre' ++ sub ++ post' → pre.length ≤ pre'.length) :
    Index s sub = (pre.length : Int) := by
  rcases indexFrom_spec sub s 0 with ⟨-, h2⟩ | ⟨pre2, post2, h1, h2, h3⟩
  · exact absurd ⟨pre, post, h⟩ h2
  · have ha := hleft pre2 post2 h1
    have hb := h3 pre post h
    rw [Index, h2]
    simp; omega

/-- `Index` of a byte in a text that has it after a stretch without it. -/
theorem Index_byte (a post : Bytes) (b : UInt8) (ha : ∀ x ∈ a, x ≠ b) :
    Index (a ++ b :: post) [b] = (a.length : Int) := by
  apply Index_of_leftmost _ _ a post (by simp)
  intro pre' post' h
  by_contra hlt
  have h1 : (a ++ b :: post)[pre'.length]? = some b := by
    rw [h, List.append_assoc, List.getElem?_append_right (le_refl _)]; simp
  rw [List.getElem?_append_left (by omega)] at h1
  exact ha b (List.getElem?_mem h1) rfl

/-- `Index` of a byte that the text does not have. -/
theorem Index_byte_none (s : Bytes) (b : UInt8) (hs : ∀ x ∈ s, x ≠ b) : Index s [b] = -1 := by
  rw [Index_eq_neg_one_iff]
  rintro ⟨pre, post, h⟩
  exact hs b (by rw [h]; simp) rfl

/-! ## App name, hostname position -/

/-- C11. For every buffer and hostname token without space, such that after the first
occurrence of the token the buffer goes on with a stretch without space, a space, a
stretch `T` without space and another space, `parseAppName` returns `T`, the text strictly
between the first and the second space after the token; in particular `T` is the token
that follows when the hostname token is directly followed by a space. -/
theorem parseAppName_between_spaces (p : Parser) (host pre a T post : Bytes)
    (hbuff : p.buff = pre ++ host ++ (a ++ 32 :: (T ++ 32 :: post)))
    (hfirst : ∀ pre' post', p.buff = pre' ++ host ++ post' → pre.length ≤ pre'.length)
    (hhost : ∀ x ∈ host, x ≠ 32) (ha : ∀ x ∈ a, x ≠ 32) (hT : ∀ x ∈ T, x ≠ 32) :
    p.parseAppName host = .ret (T, none) := by
  have hidx : Index p.buff host = (pre.length : Int) :=
    Index_of_leftmost _ _ pre _ hbuff hfirst
  obtain ⟨u, hu⟩ : ∃ u, u = host ++ a := ⟨_, rfl⟩
  have hus : ∀ x ∈ u, x ≠ 32 := by
    intro x hx
    rw [hu] at hx
    rcases List.mem_append.mp hx with h | h
    · exact hhost x h
    · exact ha x h
  have h1 : sliceFrom p.buff (pre.length : Int) = .ret (u ++ 32 :: (T ++ 32 :: post)) := by
    rw [sliceFrom_nat _ _ (by rw [hbuff]; simp)]
    rw [hbuff, List.append_assoc, List.drop_left, hu]
    simp
  have h2 : Index (u ++ 32 :: (T ++ 32 :: post)) [32] = (u.length : Int) := Index_byte _ _ 32 hus
  have h3 : sliceFrom (u ++ 32 :: (T ++ 32 :: post)) ((u.length : Int) + 1)
      = .ret (T ++ 32 :: post) := by
    have := sliceFrom_nat (u ++ 32 :: (T ++ 32 :: post)) (u.length + 1)
      (by simp only [List.length_append, List.length_cons]; omega)
    rw [Nat.cast_add, Nat.cast_one] at this
    rw [this]
    rw [show u ++ 32 :: (T ++ 32 :: post) = (u ++ [32]) ++ (T ++ 32 :: post) by simp]
    rw [List.drop_left' (by simp)]
  have h4 : Index (T ++ 32 :: post) [32] = (T.length : Int) := Index_byte _ _ 32 hT
  have h5 : sliceTo (T ++ 32 :: post) (T.length : Int) = .ret T := by
    have hle : (T.length : Int) ≤ ((T ++ 32 :: post).length : Int) := by
      simp only [List.length_append, List.length_cons, Nat.cast_add, Nat.cast_one]; omega
    simp only [sliceTo, Int.toNat_ofNat, List.take_left']
    rw [if_pos ⟨by omega, hle⟩]
  simp only [Parser.parseAppName, hidx]
  rw [if_neg (by omega)]
  simp only [h1, h2, h3, h4, h5]

/-- What `Index` returns, when not negative, is at or before every occurrence. -/
theorem Index_leftmost (s sub : Bytes) (n : Nat) (h : Index s sub = (n : Int)) :
    (∃ post, s = s.take n ++ sub ++ post) ∧
    ∀ pre' post', s = pre' ++ sub ++ post' → n ≤ pre'.length := by
  rcases indexFrom_spec sub s 0 with ⟨h1, -⟩ | ⟨pre, post, h1, h2, h3⟩
  · rw [Index, h1] at h; omega
  · rw [Index, h2] at h
    have hn : n = pre.length := by simp at h; omega
    subst hn
    refine ⟨⟨post, ?_⟩, h3⟩
    nth_rewrite 1 [h1]
    rw [h1, List.append_assoc, List.take_left]
    simp

set_option maxRecDepth 100000 in
theorem scenario_host_index : Index scenarioInput scenarioHost = ((25 : Nat) : Int) := by rfl

set_option maxRecDepth 100000 in
/-- C11 at the scenario input: the app name is `status_report`. -/
theorem parseAppName_between_spaces_witness :
    (NewParser scenarioInput).parseAppName scenarioHost = .ret (str "status_report", none) :=
  parseAppName_between_spaces (NewParser scenarioInput) scenarioHost
    (str "<134>1 1700000000.000001 ") [] (str "status_report") (str "rest of payload")
    (by rfl) (fun pre' post' h => (Index_leftmost _ _ 25 scenario_host_index).2 pre' post' h)
    (by decide) (by decide) (by decide)

set_option maxRecDepth 100000 in
/-- C12: the code at `<134>1 1700000000.123456 3fa85f64-5717-4562-b3fc-2c963f66afa6_sensor01`
and at the same text followed by ` status_report`. Both scanners succeed and the hostname
token is found; fewer than two spaces follow it, the last `strings.Index` returns -1, the
slice `s[:i]` is out of range and `parseAppName`, hence `Parse`, panics instead of
returning nil or an error. -/
theorem appName_slice_panics :
    refScanner.ParsePriority hostAtEnd 0 hostAtEnd.length
      = (({ P := 134, F := ⟨16⟩, S := ⟨6⟩ }, none), 5) ∧
    refScanner.ParseVersion hostAtEnd 5 hostAtEnd.length = ((1, none), 6) ∧
    (NewParser hostAtEnd).parseHostname = (scenarioHost, none) ∧
    (NewParser hostAtEnd).parseAppName scenarioHost = .sliceOutOfRange (-1) 45 ∧
    (NewParser hostAtEnd).Parse refScanner sampleNow = .sliceOutOfRange (-1) 45 ∧
    (NewParser hostThenOneToken).parseHostname = (scenarioHost, none) ∧
    (NewParser hostThenOneToken).parseAppName scenarioHost = .sliceOutOfRange (-1) 13 ∧
    (NewParser hostThenOneToken).Parse refScanner sampleNow = .sliceOutOfRange (-1) 13 := by
  refine ⟨by rfl, by rfl, by rfl, by rfl, by rfl, by rfl, by rfl, by rfl⟩

/-- C16. Whenever `parseHostname` succeeds with a token `h`, the token occurs in the
buffer, no substring of the hostname shape starts before the place where it stands, and
`strings.Index` finds it exactly there; so `Index` is not -1 and the branch of
`parseAppName` for an absent hostname is not taken with the hostname that header assembly
passes. -/
theorem hostname_index_is_match_start (p : Parser) (h : Bytes)
    (hp : p.parseHostname = (h, none)) :
    ∃ pre post, p.buff = pre ++ h ++ post ∧
      (∀ pre' t' post', p.buff = pre' ++ t' ++ post' → HostnameShape t' →
        pre.length ≤ pre'.length) ∧
      Index p.buff h = (pre.length : Int) ∧ Index p.buff h ≠ -1 := by
  have hne : FindString hostnameRe p.buff ≠ [] := by
    intro h0
    simp [Parser.parseHostname, h0] at hp
  have hh : h = FindString hostnameRe p.buff := by
    simp [Parser.parseHostname, hne] at hp
    exact hp.symm
  cases hf : findAux hostnameRe (runes p.buff) with
  | none => simp [FindString, hf] at hne
  | some m =>
    obtain ⟨pre, post, hs, hshape, -, hleft⟩ := findString_hostname_some p.buff m hf
    have hfs : FindString hostnameRe p.buff = m.flatten := by simp [FindString, hf]
    rw [hfs] at hh
    subst hh
    have hidx : Index p.buff m.flatten = (pre.length : Int) :=
      Index_of_leftmost _ _ pre post hs (fun pre' post' h' => hleft pre' _ post' h' hshape)
    exact ⟨pre, post, hs, hleft, hidx, by rw [hidx]; omega⟩

/-- C16 at the scenario input: the hostname is found at offset 25. -/
theorem hostname_index_is_match_start_witness :
    ∃ pre post, scenarioInput = pre ++ scenarioHost ++ post ∧
      (∀ pre' t' post', scenarioInput = pre' ++ t' ++ post' → HostnameShape t' →
        pre.length ≤ pre'.length) ∧
      Index scenarioInput scenarioHost = (pre.length : Int) ∧
      Index scenarioInput scenarioHost ≠ -1 :=
  hostname_index_is_match_start (NewParser scenarioInput) scenarioHost scenario_parseHostname

/-! ## Reserved fields, location, cursor -/

/-- The header `parseHeader` returns has empty `procId` and `msgId`. -/
theorem parseHeader_reserved (sc : Scanner) (now : Time) (p q : Parser) (hdr : Meraki.header)
    (err : Option Err) (h : p.parseHeader sc now = .ret ((hdr, err), q)) :
    hdr.procId = [] ∧ hdr.msgId = [] := by
  rcases hpri : sc.ParsePriority p.buff p.cursor p.l with ⟨⟨pri, _ | se⟩, c1⟩
  · rcases hver : sc.ParseVersion p.buff c1 p.l with ⟨⟨ver, _ | se⟩, c2⟩
    · rw [parseHeader_scanned sc now p pri c1 ver c2 hpri hver] at h
      split at h
      · cases h
      · cases h
      · simp only [Result.ret.injEq, Prod.mk.injEq] at h; rw [← h.1.1]; exact ⟨rfl, rfl⟩
      · split at h
        · simp only [Result.ret.injEq, Prod.mk.injEq] at h; rw [← h.1.1]; exact ⟨rfl, rfl⟩
        · split at h
          · cases h
          · cases h
          · simp only [Result.ret.injEq, Prod.mk.injEq] at h; rw [← h.1.1]; exact ⟨rfl, rfl⟩
          · simp only [Result.ret.injEq, Prod.mk.injEq] at h; rw [← h.1.1]; exact ⟨rfl, rfl⟩
    · rw [parseHeader_version_err sc now p pri c1 ver se c2 hpri hver] at h
      simp only [Result.ret.injEq, Prod.mk.injEq] at h; rw [← h.1.1]; exact ⟨rfl, rfl⟩
  · rw [parseHeader_priority_err sc now p pri se c1 hpri] at h
    simp only [Result.ret.injEq, Prod.mk.injEq] at h; rw [← h.1.1]; exact ⟨rfl, rfl⟩

/-- What a returning `Parse` leaves of the reserved fields: the structured data are
untouched, and the header is the old one or has empty `procId` and `msgId`. -/
theorem parse_reserved (sc : Scanner) (now : Time) (p p' : Parser) (e : Option Err)
    (h : p.Parse sc now = .ret (e, p')) :
    p'.structuredData = p.structuredData ∧
      (p'.header = p.header ∨ (p'.header.procId = [] ∧ p'.header.msgId = [])) := by
  cases hh : p.parseHeader sc now with
  | ret r =>
    obtain ⟨⟨hdr, err⟩, q⟩ := r
    have hq := parseHeader_frame sc now _ _ _ hh
    have hres := parseHeader_reserved sc now _ _ _ _ hh
    rw [parse_of_header sc now _ _ _ _ hh] at h
    split_ifs at h with h1 h2
    · simp only [Result.ret.injEq, Prod.mk.injEq] at h
      rw [← h.2, hq]
      exact ⟨rfl, Or.inl rfl⟩
    · split at h
      · simp only [Result.ret.injEq, Prod.mk.injEq] at h
        rw [← h.2]
        refine ⟨?_, Or.inr hres⟩
        show q.structuredData = p.structuredData
        rw [hq]
      · cases h
      · cases h
    · simp only [Result.ret.injEq, Prod.mk.injEq] at h
      rw [← h.2]
      refine ⟨?_, Or.inr hres⟩
      show q.structuredData = p.structuredData
      rw [hq]
  | indexOutOfRange j n => simp [Parser.Parse, hh] at h
  | sliceOutOfRange j n => simp [Parser.Parse, hh] at h

/-- C15. In every state a parser can reach (fresh from `NewParser`, after `Location`, after
a `Parse` that returned nil or an error) `Dump` gives the empty string for `proc_id`,
`msg_id` and `structured_data`: no operation writes `procId`, `msgId` or
`structuredData`. -/
theorem reserved_fields_empty (sc : Scanner) (p : Parser) (h : Reachable sc p) :
    p.Dump.proc_id = [] ∧ p.Dump.msg_id = [] ∧ p.Dump.structured_data = [] := by
  induction h with
  | new buff => exact ⟨rfl, rfl, rfl⟩
  | location p l _ ih => exact ih
  | parse p now e p' _ hp ih =>
    obtain ⟨h1, h2⟩ := parse_reserved sc now p p' e hp
    obtain ⟨i1, i2, i3⟩ := ih
    refine ⟨?_, ?_, ?_⟩
    · show p'.header.procId = []
      rcases h2 with h2 | h2
      · rw [h2]; exact i1
      · exact h2.1
    · show p'.header.msgId = []
      rcases h2 with h2 | h2
      · rw [h2]; exact i2
      · exact h2.2
    · show p'.structuredData = []
      rw [h1]; exact i3

/-- C15 after the successful `Parse` of the scenario input and after the failed `Parse`
of a message whose timestamp seconds are out of range. -/
theorem reserved_fields_empty_witness :
    (∃ p', (NewParser scenarioInput).Parse refScanner sampleNow = .ret (none, p') ∧
      p'.Dump.proc_id = [] ∧ p'.Dump.msg_id = [] ∧ p'.Dump.structured_data = []) ∧
    (∃ e p', (NewParser overflowInput).Parse refScanner sampleNow = .ret (some e, p') ∧
      p'.Dump.proc_id = [] ∧ p'.Dump.msg_id = [] ∧ p'.Dump.structured_data = []) :=
  ⟨⟨_, scenario_parse, reserved_fields_empty refScanner _
      (Reachable.parse _ _ _ _ (Reachable.new _) scenario_parse)⟩,
   ⟨_, _, overflowInput_parse, reserved_fields_empty refScanner _
      (Reachable.parse _ _ _ _ (Reachable.new _) overflowInput_parse)⟩⟩

/-- `parseHeader` does not read the location. -/
theorem parseHeader_location (sc : Scanner) (now : Time) (p : Parser) (l : Option Location) :
    (p.Location l).parseHeader sc now =
      match p.parseHeader sc now with
      | .ret (r, q) => .ret (r, q.Location l)
      | .indexOutOfRange j n => .indexOutOfRange j n
      | .sliceOutOfRange j n => .sliceOutOfRange j n := by
  have hb : (p.Location l).buff = p.buff := rfl
  have hc : (p.Location l).cursor = p.cursor := rfl
  have hl : (p.Location l).l = p.l := rfl
  rcases hpri : sc.ParsePriority p.buff p.cursor p.l with ⟨⟨pri, _ | se⟩, c1⟩
  · rcases hver : sc.ParseVersion p.buff c1 p.l with ⟨⟨ver, _ | se⟩, c2⟩
    · rw [parseHeader_scanned sc now p pri c1 ver c2 hpri hver,
        parseHeader_scanned sc now (p.Location l) pri c1 ver c2 hpri hver, hb]
      cases (NewParser p.buff).parseTimestamp now with
      | ret r =>
        obtain ⟨ts, _ | terr⟩ := r
        · simp only
          rcases (NewParser p.buff).parseHostname with ⟨host, _ | herr⟩
          · simp only
            cases (NewParser p.buff).parseAppName host with
            | ret r => obtain ⟨app, _ | aerr⟩ := r <;> rfl
            | indexOutOfRange j n => rfl
            | sliceOutOfRange j n => rfl
          · rfl
        · rfl
      | indexOutOfRange j n => rfl
      | sliceOutOfRange j n => rfl
    · rw [parseHeader_version_err sc now p pri c1 ver se c2 hpri hver,
        parseHeader_version_err sc now (p.Location l) pri c1 ver se c2 hpri hver]
      rfl
  · rw [parseHeader_priority_err sc now p pri se c1 hpri,
      parseHeader_priority_err sc now (p.Location l) pri se c1 hpri]
    rfl

/-- `Parse` does not read the location. -/
theorem parse_location (sc : Scanner) (now : Time) (p : Parser) (l : Option Location) :
    (p.Location l).Parse sc now =
      match p.Parse sc now with
      | .ret (e, q) => .ret (e, q.Location l)
      | .indexOutOfRange j n => .indexOutOfRange j n
      | .sliceOutOfRange j n => .sliceOutOfRange j n := by
  have hloc := parseHeader_location sc now p l
  cases hh : p.parseHeader sc now with
  | ret r =>
    obtain ⟨⟨hdr, err⟩, q⟩ := r
    rw [hh] at hloc
    rw [parse_of_header sc now _ _ _ _ hh, parse_of_header sc now _ _ _ _ hloc]
    have hb : (q.Location l).buff = q.buff := rfl
    have hc : (q.Location l).cursor = q.cursor := rfl
    have hl : (q.Location l).l = q.l := rfl
    rw [hb, hc, hl]
    split_ifs
    · rfl
    · cases sliceFrom q.buff q.cursor <;> rfl
    · rfl
  | indexOutOfRange j n =>
    rw [hh] at hloc
    simp only [Parser.Parse, hh, hloc]
  | sliceOutOfRange j n =>
    rw [hh] at hloc
    simp only [Parser.Parse, hh, hloc]

/-- C18. A parser built by `NewParser` has cursor 0 and location UTC; `Location` changes
only the location; and for every buffer and every two locations `Parse` ends the same
way: with the same panic, or returning the same result and leaving parsers that differ
only in the location and have the same `Dump`. -/
theorem location_never_read (sc : Scanner) (now : Time) (buff : Bytes)
    (l1 l2 : Option Location) :
    (NewParser buff).cursor = 0 ∧ (NewParser buff).location = some .UTC ∧
    (∀ (p : Parser) l, p.Location l = { p with location := l }) ∧
    (∀ e q, ((NewParser buff).Location l1).Parse sc now = .ret (e, q) →
      ((NewParser buff).Location l2).Parse sc now = .ret (e, q.Location l2) ∧
      (q.Location l2).Dump = q.Dump) ∧
    (∀ j n, ((NewParser buff).Location l1).Parse sc now = .indexOutOfRange j n →
      ((NewParser buff).Location l2).Parse sc now = .indexOutOfRange j n) ∧
    (∀ j n, ((NewParser buff).Location l1).Parse sc now = .sliceOutOfRange j n →
      ((NewParser buff).Location l2).Parse sc now = .sliceOutOfRange j n) := by
  have key := parse_location sc now ((NewParser buff).Location l1) l2
  have hll : ((NewParser buff).Location l1).Location l2 = (NewParser buff).Location l2 := rfl
  rw [hll] at key
  refine ⟨rfl, rfl, fun _ _ => rfl, ?_, ?_, ?_⟩
  · intro e q h
    rw [h] at key
    exact ⟨key, rfl⟩
  · intro j n h
    rw [h] at key
    exact key
  · intro j n h
    rw [h] at key
    exact key

/-- C18 at the scenario input, parsed in UTC and in another location. -/
theorem location_never_read_witness :
    ∃ q, ((NewParser scenarioInput).Location (some (.named "Europe/Oslo"))).Parse refScanner sampleNow
        = .ret (none, q) ∧
      q.Dump.timestamp = Unix 1700000000 1 ∧
      q.Dump.hostname = scenarioHost ∧ q.Dump.message = scenarioInput.drop 7 :=
  ⟨_, ((location_never_read refScanner sampleNow scenarioInput (some .UTC)
      (some (.named "Europe/Oslo"))).2.2.2.1 none _ scenario_parse).1, rfl, rfl, rfl⟩

/-- A successful `Parse` of a fresh parser means that both scanners succeeded. -/
theorem parse_ok_scanned (sc : Scanner) (now : Time) (buff : Bytes) (p' : Parser)
    (h : (NewParser buff).Parse sc now = .ret (none, p')) :
    ∃ pri c1 ver c2, sc.ParsePriority buff 0 buff.length = ((pri, none), c1) ∧
      sc.ParseVersion buff c1 buff.length = ((ver, none), c2) := by
  rcases hpri : sc.ParsePriority buff 0 buff.length with ⟨⟨pri, _ | se⟩, c1⟩
  · rcases hver : sc.ParseVersion buff c1 buff.length with ⟨⟨ver, _ | se⟩, c2⟩
    · exact ⟨pri, c1, ver, c2, rfl, hver⟩
    · rw [parse_version_err sc now buff pri c1 ver se c2 hpri hver] at h
      simp at h
  · rw [parse_priority_err sc now buff pri se c1 hpri] at h
    simp at h

/-- C19. The three extractors read the buffer only (they give the same result on every
parser with the same buffer, and return no parser, so they cannot move the cursor); after
a successful `Parse` of a fresh parser the cursor is one past the position the version
scanner left, the message is the buffer from the cursor on when the cursor is below the
length of the buffer and is empty otherwise, and every part of the buffer that starts at
or after the cursor is still in the message. -/
theorem parse_cursor_and_message (sc : Scanner) (now : Time) (buff : Bytes) (p' : Parser)
    (h : (NewParser buff).Parse sc now = .ret (none, p')) :
    (∀ q : Parser, q.buff = buff →
      q.parseTimestamp now = (NewParser buff).parseTimestamp now ∧
      q.parseHostname = (NewParser buff).parseHostname ∧
      ∀ host, q.parseAppName host = (NewParser buff).parseAppName host) ∧
    (∃ pri c1 ver c2, sc.ParsePriority buff 0 buff.length = ((pri, none), c1) ∧
      sc.ParseVersion buff c1 buff.length = ((ver, none), c2) ∧ p'.cursor = c2 + 1) ∧
    p'.message = (if p'.cursor < buff.length then buff.drop p'.cursor else []) ∧
    (∀ pre t post, buff = pre ++ t ++ post → p'.cursor ≤ pre.length →
      ∃ pre', p'.message = pre' ++ t ++ post) := by
  obtain ⟨pri, c1, ver, c2, hpri, hver⟩ := parse_ok_scanned sc now buff p' h
  obtain ⟨ts, host, app, -, hp, -⟩ := parse_ok_shape sc now buff pri c1 ver c2 p' hpri hver h
  have hcur : p'.cursor = c2 + 1 := by rw [hp]
  have hmsg : p'.message = (if p'.cursor < buff.length then buff.drop p'.cursor else []) := by
    rw [hcur]; rw [hp]
  refine ⟨?_, ⟨pri, c1, ver, c2, hpri, hver, hcur⟩, hmsg, ?_⟩
  · intro q hq
    refine ⟨?_, ?_, ?_⟩
    · rw [parseTimestamp_buff, hq]
    · rw [parseHostname_buff, hq]
    · intro host; rw [parseAppName_buff, hq]
  · intro pre t post hb hle
    rw [hmsg]
    split_ifs with hc
    · refine ⟨pre.drop p'.cursor, ?_⟩
      rw [hb, List.append_assoc, List.drop_append_of_le_length hle, List.append_assoc]
    · have hlen := congrArg List.length hb
      simp only [List.length_append] at hlen
      have ht : t = [] := List.eq_nil_of_length_eq_zero (by omega)
      have hpost : post = [] := List.eq_nil_of_length_eq_zero (by omega)
      exact ⟨[], by rw [ht, hpost]; rfl⟩

set_option maxRecDepth 100000 in
theorem versionAtEnd_parse :
    (NewParser versionAtEnd).Parse refScanner sampleNow =
      .ret (none, { NewParser versionAtEnd with
                    cursor := 7
                    header := { priority := { P := 134, F := ⟨16⟩, S := ⟨6⟩ }, version := 1
                                timestamp := sampleNow } }) := by rfl

set_option maxRecDepth 100000 in
/-- C19 at `<134>1`, a buffer that ends with the version digit: the cursor (7) is past the
end (6), `Parse` returns nil and the message is empty; and at the scenario input, where the
hostname token is still in the message. -/
theorem parse_cursor_and_message_witness :
    (∃ p', (NewParser versionAtEnd).Parse refScanner sampleNow = .ret (none, p') ∧
      p'.cursor = 7 ∧ versionAtEnd.length = 6 ∧
      p'.message = (if p'.cursor < versionAtEnd.length then versionAtEnd.drop p'.cursor else []) ∧
      p'.message = []) ∧
    (∃ p' pre', (NewParser scenarioInput).Parse refScanner sampleNow = .ret (none, p') ∧
      p'.message = pre' ++ scenarioHost ++ str " status_report rest of payload") :=
  ⟨⟨_, versionAtEnd_parse, rfl, by rfl,
      (parse_cursor_and_message refScanner sampleNow versionAtEnd _ versionAtEnd_parse).2.2.1, rfl⟩,
    by
      obtain ⟨pre', h⟩ :=
        (parse_cursor_and_message refScanner sampleNow scenarioInput _ scenario_parse).2.2.2
          (str "<134>1 1700000000.000001 ") scenarioHost (str " status_report rest of payload")
          (by rfl) (by decide)
      exact ⟨_, pre', scenario_parse, h⟩⟩

/-! ## The timestamp pattern, in full -/

/-- The backtracking search succeeds whenever some number of repetitions within the bounds
lets the rest of the pattern match. -/
theorem repeatGreedy_complete (c : Class) (k : List Bytes → Option (List Bytes)) :
    ∀ (ts : List Bytes) (mn : Nat) (mx : Option Nat) (n : Nat),
      mn ≤ n → (∀ M, mx = some M → n ≤ M) → n ≤ ts.length →
      (∀ t ∈ ts.take n, c.accepts t = true) → (k (ts.drop n)).isSome = true →
      (repeatGreedy c k mn mx ts).isSome = true := by
  intro ts
  induction ts with
  | nil =>
    intro mn mx n hmn _ hlen _ hk
    have hn : n = 0 := by simpa using hlen
    subst hn
    have : mn = 0 := by omega
    subst this
    rw [repeatGreedy]
    simpa using hk
  | cons t ts ih =>
    intro mn mx n hmn hmx hlen hacc hk
    rw [repeatGreedy]
    cases n with
    | zero =>
      have : mn = 0 := by omega
      subst this
      simp only [List.drop_zero] at hk
      by_cases hcond : (c.accepts t && !(mx == some 0)) = true
      · rw [if_pos hcond]
        cases repeatGreedy c k (0 - 1) (Option.map (fun x => x - 1) mx) ts <;> simp [hk]
      · rw [if_neg hcond]
        simp [hk]
    | succ n =>
      have ht : c.accepts t = true := hacc t (by simp)
      have hmx0 : (mx == some 0) = false := by
        rw [beq_eq_false_iff_ne]
        intro h0
        have := hmx 0 h0
        omega
      simp only [ht, hmx0, Bool.not_false, Bool.and_self, if_true]
      have hrec := ih (mn - 1) (mx.map (· - 1)) n (by omega)
        (by
          intro M hM
          cases mx with
          | none => simp at hM
          | some M0 =>
            simp only [Option.map_some', Option.some.injEq] at hM
            have := hmx M0 rfl
            omega)
        (by simpa using hlen)
        (fun x hx => hacc x (by simp [hx]))
        (by simpa using hk)
      cases hr : repeatGreedy c k (mn - 1) (Option.map (fun x => x - 1) mx) ts with
      | none => rw [hr] at hrec; simp at hrec
      | some m => simp

/-- A rune the decoder cuts is one byte, or bytes that are all outside ASCII. -/
theorem runesAux_token_bytes : ∀ (s : Bytes) (k : Nat), ∀ t ∈ runesAux k s,
    (∃ b, t = [b]) ∨ (t ≠ [] ∧ ∀ x ∈ t, 128 ≤ x.toNat) := by
  intro s
  induction s with
  | nil => intro k t ht; simp [runesAux] at ht
  | cons b bs ih =>
    intro k t ht
    cases k with
    | zero =>
      rw [runesAux] at ht
      rcases List.mem_cons.mp ht with rfl | h
      · by_cases hb : b.toNat < 128
        · left; rw [runeWidth_ascii b bs hb]; exact ⟨b, by simp⟩
        · right
          refine ⟨by simp, ?_⟩
          intro x hx
          rcases List.mem_cons.mp hx with rfl | hx
          · omega
          · obtain ⟨i, hi⟩ := List.mem_iff_getElem?.mp hx
            rw [List.getElem?_take] at hi
            split_ifs at hi with hlt
            exact runeWidth_tail b bs i x hlt hi
      · exact ih _ t h
    | succ k => rw [runesAux] at ht; exact ih _ t ht

/-- What the timestamp pattern matches at the head of the runes: ten or more digits, one
rune other than a newline, six or more digits. -/
theorem matchItems_timestamp_sound (ts m : List Bytes) (h : matchItems timestampRe ts = some m) :
    ∃ (S : Bytes) (c : Bytes) (F : Bytes) (R : List Bytes),
      ts = (S.map (fun x => [x]) ++ c :: F.map (fun x => [x])) ++ R ∧
      m = S.map (fun x => [x]) ++ c :: F.map (fun x => [x]) ∧
      10 ≤ S.length ∧ (∀ x ∈ S, isDigit x = true) ∧ Class.anyNotNL.accepts c = true ∧
      6 ≤ F.length ∧ (∀ x ∈ F, isDigit x = true) := by
  unfold timestampRe at h
  rw [matchItems] at h
  obtain ⟨n, m1, hn, hlen, hacc, hk, hm, -⟩ := repeatGreedy_sound _ _ _ _ _ _ h
  simp only at hn
  rw [matchItems] at hk
  obtain ⟨n2, m2, hn2, hlen2, hacc2, hk2, hm2, hmx2⟩ := repeatGreedy_sound _ _ _ _ _ _ hk
  simp only at hn2
  have hn2' : n2 = 1 := by
    have := hmx2 1 rfl
    omega
  subst hn2'
  rw [matchItems_last] at hk2
  split_ifs at hk2 with hlen3
  simp only [Option.some.injEq] at hk2
  obtain ⟨h1, h1'⟩ := singles_eq (ts.take n) (fun t ht => accepts_single _ (by decide) t (hacc t ht))
  have hFacc : ∀ t ∈ List.takeWhile Class.digit.accepts (List.drop 1 (List.drop n ts)),
      Class.digit.accepts t = true := fun t ht => List.mem_takeWhile_imp ht
  obtain ⟨h3, h3'⟩ := singles_eq _ (fun t ht => accepts_single _ (by decide) t (hFacc t ht))
  obtain ⟨c, rest, hc⟩ : ∃ c rest, List.drop n ts = c :: rest := by
    cases hd : List.drop n ts with
    | nil => rw [hd] at hlen2; simp at hlen2
    | cons c rest => exact ⟨c, rest, rfl⟩
  rw [hc] at hacc2 hm2 hk2 h3 h3' hFacc hlen3
  simp only [List.take_succ_cons, List.take_zero, List.mem_singleton, forall_eq, List.drop_succ_cons,
    List.drop_zero, List.singleton_append] at hacc2 hm2 hk2 h3 h3' hFacc hlen3
  refine ⟨(ts.take n).flatten, c, (List.takeWhile Class.digit.accepts rest).flatten,
    List.dropWhile Class.digit.accepts rest, ?_, ?_, ?_, ?_, hacc2, ?_, ?_⟩
  · rw [← h1, ← h3, List.append_assoc, List.cons_append, List.takeWhile_append_dropWhile, ← hc,
      List.take_append_drop]
  · rw [hm, hm2, ← hk2, ← h1, ← h3]
  · rw [h1', List.length_take]; omega
  · intro x hx
    have : [x] ∈ ts.take n := by rw [h1]; exact List.mem_map.mpr ⟨x, hx, rfl⟩
    exact hacc _ this
  · rw [h3']; exact hlen3
  · intro x hx
    have : [x] ∈ List.takeWhile Class.digit.accepts rest := by
      rw [h3]; exact List.mem_map.mpr ⟨x, hx, rfl⟩
    exact hFacc _ this

theorem takeWhile_digits_length : ∀ (F : Bytes) (R : List Bytes), (∀ x ∈ F, isDigit x = true) →
    F.length ≤ (List.takeWhile Class.digit.accepts (F.map (fun x => [x]) ++ R)).length := by
  intro F
  induction F with
  | nil => intro R _; simp
  | cons x F ih =>
    intro R hFd
    have hx : Class.digit.accepts [x] = true := hFd x (by simp)
    simp only [List.map_cons, List.cons_append, List.takeWhile_cons, hx, if_true,
      List.length_cons]
    have := ih R (fun y hy => hFd y (by simp [hy]))
    omega

/-- Wherever the runes begin with a token of the timestamp shape, the pattern matches. -/
theorem matchItems_timestamp_complete (t : Bytes) (R : List Bytes) (ht : TimestampShape t) :
    (matchItems timestampRe (t.map (fun x => [x]) ++ R)).isSome = true := by
  obtain ⟨S, F, rfl, hS, hSd, hF, hFd⟩ := ht
  unfold timestampRe
  rw [matchItems]
  have htake : List.take S.length (List.map (fun x => [x]) (S ++ 46 :: F) ++ R)
      = S.map (fun x => [x]) := by
    rw [List.map_append, List.append_assoc, List.take_append_of_le_length (by simp)]
    rw [List.take_of_length_le (by simp)]
  have hdrop : List.drop S.length (List.map (fun x => [x]) (S ++ 46 :: F) ++ R)
      = [46] :: (F.map (fun x => [x]) ++ R) := by
    rw [List.map_append, List.append_assoc, List.drop_append_of_le_length (by simp)]
    rw [List.drop_of_length_le (by simp)]
    simp
  apply repeatGreedy_complete _ _ _ _ _ S.length hS (by simp) (by simp)
  · rw [htake]
    intro x hx
    obtain ⟨y, hy, rfl⟩ := List.mem_map.mp hx
    exact hSd y hy
  · rw [hdrop, matchItems]
    apply repeatGreedy_complete _ _ _ _ _ 1 (le_refl _) (by simp) (by simp)
    · intro x hx
      simp only [List.take_succ_cons, List.take_zero, List.mem_singleton] at hx
      rw [hx]; rfl
    · simp only [List.drop_succ_cons, List.drop_zero]
      rw [matchItems_last]
      have hle := takeWhile_digits_length F R hFd
      rw [if_pos (le_trans hF hle)]
      rfl

/-- The digit loop of `ParseUint` on a string of digits: its value, or the range error
with the greatest `uint64`. -/
theorem parseUintLoop_digits_spec : ∀ (cs : Bytes) (n : Nat), n < 2 ^ 64 →
    (∀ x ∈ cs, isDigit x = true) →
    parseUintLoop n cs =
      if decimalFrom n cs < 2 ^ 64 then (decimalFrom n cs, none) else (2 ^ 64 - 1, some .ErrRange) := by
  intro cs
  induction cs with
  | nil =>
    intro n hn _
    have e : decimalFrom n [] = n := rfl
    rw [e, if_pos hn]
    rfl
  | cons c cs ih =>
    intro n hn hd
    have hc : isDigit c = true := hd c (by simp)
    have hc' : 48 ≤ c.toNat ∧ c.toNat ≤ 57 := by simpa [isDigit] using hc
    have hge := decimalFrom_ge cs (n * 10 + (c.toNat - 48))
    have e : decimalFrom n (c :: cs) = decimalFrom (n * 10 + (c.toNat - 48)) cs := rfl
    rw [e, parseUintLoop]
    simp only [hc, if_true]
    by_cases h1 : n ≥ (2 ^ 64 - 1) / 10 + 1
    · rw [if_pos h1, if_neg]
      have : (2 ^ 64 - 1) / 10 + 1 = 1844674407370955162 := by norm_num
      omega
    · rw [if_neg h1]
      have h1' : n < 1844674407370955162 := by
        have : (2 ^ 64 - 1) / 10 + 1 = 1844674407370955162 := by norm_num
        omega
      have h2 : n * 10 % 2 ^ 64 = n * 10 := Nat.mod_eq_of_lt (by omega)
      simp only [h2]
      by_cases h3 : n * 10 + (c.toNat - 48) < 2 ^ 64
      · have h4 : (n * 10 + (c.toNat - 48)) % 2 ^ 64 = n * 10 + (c.toNat - 48) :=
          Nat.mod_eq_of_lt h3
        rw [h4, if_neg (by omega)]
        exact ih _ h3 (fun x hx => hd x (by simp [hx]))
      · have h4 : (n * 10 + (c.toNat - 48)) % 2 ^ 64 = n * 10 + (c.toNat - 48) - 2 ^ 64 := by
          rw [Nat.mod_eq_sub_mod (by omega)]
          exact Nat.mod_eq_of_lt (by omega)
        rw [h4, if_pos (Or.inl (by omega)), if_neg (by omega)]

/-- `ParseInt` on a non-empty string of digits: its value when below `2^63`, else the
range error with the greatest `int64`. -/
theorem ParseInt_digits_spec (s : Bytes) (hne : s ≠ []) (hd : ∀ x ∈ s, isDigit x = true) :
    ParseInt s =
      if decimal s < 2 ^ 63 then ((decimal s : Int), none)
      else (2 ^ 63 - 1, some (.numError "ParseInt" s .ErrRange)) := by
  by_cases hfit : decimal s < 2 ^ 63
  · rw [if_pos hfit]
    exact ParseInt_digits s hne hd hfit
  · rw [if_neg hfit]
    rcases s with _ | ⟨c, cs⟩
    · exact absurd rfl hne
    · have hc : isDigit c = true := hd c (by simp)
      have hc' : 48 ≤ c.toNat ∧ c.toNat ≤ 57 := by simpa [isDigit] using hc
      have h43 : (c == 43) = false := by
        rw [beq_eq_false_iff_ne]; intro h; rw [h] at hc'; revert hc'; decide
      have h45 : (c == 45) = false := by
        rw [beq_eq_false_iff_ne]; intro h; rw [h] at hc'; revert hc'; decide
      have hu := parseUintLoop_digits_spec (c :: cs) 0 (by norm_num) hd
      have hp63 : (2 : Nat) ^ 63 = 9223372036854775808 := by norm_num
      have hp64 : (2 : Nat) ^ 64 = 18446744073709551616 := by norm_num
      have hdec : decimal (c :: cs) = decimalFrom 0 (c :: cs) := rfl
      simp only [ParseInt, h43, h45, Bool.false_eq_true, or_self, if_false, ParseUint,
        List.isEmpty_cons, hu]
      by_cases h64 : decimalFrom 0 (c :: cs) < 2 ^ 64
      · rw [if_pos h64]
        have h63 : 9223372036854775808 ≤ decimalFrom 0 (c :: cs) := by omega
        simp [h63]
      · rw [if_neg h64]
        simp

theorem ParseInt_digits_ok (s : Bytes) (hne : s ≠ []) (hd : ∀ x ∈ s, isDigit x = true)
    (sec : Int) (h : ParseInt s = (sec, none)) : sec = (decimal s : Int) ∧ decimal s < 2 ^ 63 := by
  rw [ParseInt_digits_spec s hne hd] at h
  split_ifs at h with hfit
  · simp only [Prod.mk.injEq, and_true] at h
    exact ⟨h.symm, hfit⟩
  · simp at h

theorem TimestampShape.all_ascii {t : Bytes} (h : TimestampShape t) : ∀ x ∈ t, x.toNat < 128 := by
  obtain ⟨S, F, rfl, -, hS, -, hF⟩ := h
  intro x hx
  simp only [List.mem_append, List.mem_cons] at hx
  rcases hx with h | rfl | h
  · exact isDigit_ascii x (hS x h)
  · decide
  · exact isDigit_ascii x (hF x h)

theorem TimestampShape.nonempty {t : Bytes} (h : TimestampShape t) : t ≠ [] := by
  obtain ⟨S, F, rfl, -⟩ := h
  intro hnil
  have := congrArg List.length hnil
  simp at this

/-- Where a token of the timestamp shape stands in the text, the pattern matches the runes
from there on. -/
theorem timestamp_match_at (pre t post : Bytes) (ht : TimestampShape t) :
    ∃ P, runes (pre ++ t ++ post) = P ++ (t.map (fun x => [x]) ++ runes post) ∧
      P.flatten = pre ∧
      (matchItems timestampRe (t.map (fun x => [x]) ++ runes post)).isSome = true := by
  have hm := matchItems_timestamp_complete t (runes post) ht
  rcases t with _ | ⟨a0, t'⟩
  · exact absurd rfl ht.nonempty
  · obtain ⟨P, hP, hflat⟩ := runes_boundary pre a0 (t' ++ post) (ht.all_ascii a0 (by simp))
    refine ⟨P, ?_, hflat, hm⟩
    have := runes_ascii_append (a0 :: t') post ht.all_ascii
    simp only [List.append_assoc, List.cons_append] at this ⊢
    rw [hP, this]

/-- A text with a substring of the timestamp shape makes the pattern match somewhere. -/
theorem findAux_timestamp_isSome (s : Bytes)
    (h : ∃ pre t post, s = pre ++ t ++ post ∧ TimestampShape t) :
    (findAux timestampRe (runes s)).isSome = true := by
  obtain ⟨pre, t, post, rfl, ht⟩ := h
  obtain ⟨P, hP, -, hm⟩ := timestamp_match_at pre t post ht
  cases hf : findAux timestampRe (runes (pre ++ t ++ post)) with
  | some m => rfl
  | none =>
    have := findAux_none _ _ hf P _ hP
    rw [this] at hm
    simp at hm

/-- The text `FindString` returns for the timestamp pattern, when it finds a match: ten or
more digits, one rune that is a dot or has no dot in it, six or more digits; and no
substring of the timestamp shape starts before the match. -/
theorem findString_timestamp_some (s : Bytes) (m : List Bytes)
    (h : findAux timestampRe (runes s) = some m) :
    ∃ pre S c F post, s = pre ++ (S ++ c ++ F) ++ post ∧ m.flatten = S ++ c ++ F ∧
      10 ≤ S.length ∧ (∀ x ∈ S, isDigit x = true) ∧
      6 ≤ F.length ∧ (∀ x ∈ F, isDigit x = true) ∧
      (c = [46] ∨ ∀ x ∈ c, x ≠ 46) ∧
      (∀ pre' t' post', s = pre' ++ t' ++ post' → TimestampShape t' →
        pre.length ≤ pre'.length) := by
  obtain ⟨P, R, hPR, hR, hleft⟩ := findAux_some _ _ _ h
  obtain ⟨S, c, F, R2, rfl, hm, hS, hSd, hc, hF, hFd⟩ := matchItems_timestamp_sound _ _ hR
  have hs : s = P.flatten ++ (S ++ c ++ F) ++ R2.flatten := by
    have := congrArg List.flatten hPR
    rw [runes_flatten] at this
    rw [this]
    simp [flatten_map_single]
  have hmf : m.flatten = S ++ c ++ F := by
    rw [hm]; simp [flatten_map_single]
  have hcmem : c ∈ runes s := by rw [hPR]; simp
  have hc46 : c = [46] ∨ ∀ x ∈ c, x ≠ 46 := by
    rcases runesAux_token_bytes s 0 c hcmem with ⟨b, rfl⟩ | ⟨-, hall⟩
    · by_cases hb : b = 46
      · left; rw [hb]
      · right; intro x hx; simp only [List.mem_singleton] at hx; rw [hx]; exact hb
    · right
      intro x hx h46
      have := hall x hx
      rw [h46] at this
      revert this; decide
  refine ⟨P.flatten, S, c, F, R2.flatten, hs, hmf, hS, hSd, hF, hFd, hc46, ?_⟩
  intro pre' t' post' hs' ht'
  obtain ⟨P', hP', hflat', hm'⟩ := timestamp_match_at pre' t' post' ht'
  rw [← hs', hPR] at hP'
  by_contra hlt
  have hlen : P'.length < P.length := by
    by_contra hge
    have := flatten_length_le_of_append_eq hP' (by omega)
    rw [hflat'] at this
    omega
  have := hleft P' _ (hPR.trans hP') hlen
  rw [this] at hm'
  simp at hm'

/-- What `parseTimestamp` returns without error, when the pattern matched: the match is a
string of digits, a dot and a string of digits, it is the first substring of the timestamp
shape, its seconds fit `int64`, and the timestamp is `Unix` of the seconds and of what
`ParseInt` returns for the digits after the dot (their value, or `2^63 - 1` when it is
out of range). -/
theorem parseTimestamp_ok_dotted (now : Time) (p : Parser) (ts : Time)
    (h : p.parseTimestamp now = .ret (ts, none))
    (hne : FindString timestampRe p.buff ≠ []) :
    ∃ pre S F, FindString timestampRe p.buff = S ++ 46 :: F ∧
      FirstTimestampToken p.buff pre (S ++ 46 :: F) ∧
      10 ≤ S.length ∧ (∀ x ∈ S, isDigit x = true) ∧
      6 ≤ F.length ∧ (∀ x ∈ F, isDigit x = true) ∧
      decimal S < 2 ^ 63 ∧
      (ParseInt F).1 = (if decimal F < 2 ^ 63 then (decimal F : Int) else 2 ^ 63 - 1) ∧
      ts = Unix (decimal S) (ParseInt F).1 := by
  cases hf : findAux timestampRe (runes p.buff) with
  | none => simp [FindString, hf] at hne
  | some m =>
    obtain ⟨pre, S, c, F, post, hs, hmf, hS, hSd, hF, hFd, hc, hleft⟩ :=
      findString_timestamp_some p.buff m hf
    have hfs : FindString timestampRe p.buff = S ++ c ++ F := by
      simp [FindString, hf, hmf]
    have hSne : S ≠ [] := by
      intro h0; rw [h0] at hS; simp at hS
    have hFne : F ≠ [] := by
      intro h0; rw [h0] at hF; simp at hF
    simp only [Parser.parseTimestamp, hfs] at h
    rw [if_neg (by rw [← hfs]; exact hne)] at h
    rcases hc with rfl | hc
    · have hsplit : Split (S ++ [46] ++ F) 46 = [S, F] := by
        rw [Split, List.append_assoc, List.singleton_append,
          splitAux_one_sep 46 S [] F (fun x hx => isDigit_ne_dot x (hSd x hx))
          (fun x hx => isDigit_ne_dot x (hFd x hx))]
        simp
      rw [hsplit] at h
      simp only [List.getElem?_cons_zero, List.getElem?_cons_succ] at h
      rw [ParseInt_digits_spec S hSne hSd] at h
      by_cases hfit : decimal S < 2 ^ 63
      · rw [if_pos hfit] at h
        simp only [Result.ret.injEq, Prod.mk.injEq, and_true] at h
        refine ⟨pre, S, F, by rw [hfs]; simp, ⟨⟨post, by rw [hs]; simp⟩,
          ⟨S, F, rfl, hS, hSd, hF, hFd⟩, hleft⟩, hS, hSd, hF, hFd, hfit, ?_, h.symm⟩
        rw [ParseInt_digits_spec F hFne hFd]
        split_ifs <;> rfl
      · rw [if_neg hfit] at h
        simp at h
    · exfalso
      have hsplit : Split (S ++ c ++ F) 46 = [S ++ c ++ F] := by
        rw [Split, splitAux_no_sep 46 _ [] (by
          intro x hx
          simp only [List.mem_append] at hx
          rcases hx with (hx | hx) | hx
          · exact isDigit_ne_dot x (hSd x hx)
          · exact hc x hx
          · exact isDigit_ne_dot x (hFd x hx))]
        simp
      rw [hsplit] at h
      simp only [List.getElem?_cons_zero, List.getElem?_cons_succ, List.getElem?_nil] at h
      rcases hpi : ParseInt (S ++ c ++ F) with ⟨sec, _ | err⟩
      · rw [hpi] at h; simp at h
      · rw [hpi] at h; simp at h

/-- `Unix` of non-negative `int64` seconds and nanoseconds is not the zero time. -/
theorem Unix_not_zero (sec nano : Int) (hs : 0 ≤ sec) (hs' : sec < 2 ^ 63) (hn : 0 ≤ nano)
    (hn' : nano < 2 ^ 63) : (Unix sec nano).IsZero = false ∧ Unix sec nano ≠ {} := by
  have hp63 : (2 : Int) ^ 63 = 9223372036854775808 := by norm_num
  have hp64 : (2 : Int) ^ 64 = 18446744073709551616 := by norm_num
  rw [hp63] at hs' hn'
  have hext : (Unix sec nano).ext ≠ 0 := by
    unfold Unix
    by_cases h1 : nano < 0 ∨ nano ≥ 1000000000
    · rw [if_pos h1]
      simp only [Int.tdiv_eq_ediv hn (show (0 : Int) ≤ 1000000000 by norm_num)]
      split_ifs with h2
      · simp only [unixTime, wrapInt64, unixToInternal, hp63, hp64] at h2 ⊢
        omega
      · simp only [unixTime, wrapInt64, unixToInternal, hp63, hp64] at h2 ⊢
        omega
    · rw [if_neg h1]
      simp only [unixTime, wrapInt64, unixToInternal, hp63, hp64]
      omega
  constructor
  · simp only [Time.IsZero, Bool.and_eq_false_iff, beq_eq_false_iff_ne]
    exact Or.inl hext
  · intro h
    rw [h] at hext
    exact hext rfl

/-! ## Timestamp claims -/

/-- C13. After every successful `Parse` of a fresh parser, run with a clock reading that is
not the zero time, the timestamp of the header is not the zero time: it is the clock
reading (when the pattern matched nothing) or `Unix(sec, nano)` with `sec` the non-negative
value of the digits before the dot of the first substring of the timestamp shape and
`nano` what `ParseInt` returns for the digits after the dot. -/
theorem timestamp_never_zero (sc : Scanner) (now : Time) (buff : Bytes) (p' : Parser)
    (hnow : now.IsZero = false)
    (h : (NewParser buff).Parse sc now = .ret (none, p')) :
    p'.header.timestamp.IsZero = false ∧ p'.header.timestamp ≠ {} ∧
    ((FindString timestampRe buff = [] ∧ p'.header.timestamp = now) ∨
     (∃ pre S F, FirstTimestampToken buff pre (S ++ 46 :: F) ∧
        (∀ x ∈ S, isDigit x = true) ∧ (∀ x ∈ F, isDigit x = true) ∧
        (0 : Int) ≤ (decimal S : Int) ∧ decimal S < 2 ^ 63 ∧
        p'.header.timestamp = Unix (decimal S) (ParseInt F).1)) := by
  obtain ⟨pri, c1, ver, c2, hpri, hver⟩ := parse_ok_scanned sc now buff p' h
  obtain ⟨ts, host, app, hts, hp, -⟩ := parse_ok_shape sc now buff pri c1 ver c2 p' hpri hver h
  have hts' : p'.header.timestamp = ts := by rw [hp]
  rw [hts']
  rcases parseTimestamp_ok now _ ts hts with ⟨h0, hnow'⟩ | ⟨hne, -⟩
  · subst hnow'
    refine ⟨hnow, ?_, Or.inl ⟨h0, rfl⟩⟩
    intro hz
    rw [hz] at hnow
    revert hnow; decide
  · obtain ⟨pre, S, F, -, hfirst, -, hSd, -, hFd, hfit, hnano, hUnix⟩ :=
      parseTimestamp_ok_dotted now _ ts hts hne
    have hp63 : (2 : Int) ^ 63 = 9223372036854775808 := by norm_num
    have hp63n : (2 : Nat) ^ 63 = 9223372036854775808 := by norm_num
    have hnano' : 0 ≤ (ParseInt F).1 ∧ (ParseInt F).1 < 2 ^ 63 := by
      rw [hnano]
      split_ifs with hf
      · constructor
        · exact Int.ofNat_nonneg _
        · rw [hp63]; omega
      · constructor <;> norm_num
    have hsec : ((decimal S : Nat) : Int) < 2 ^ 63 := by rw [hp63]; omega
    obtain ⟨hz1, hz2⟩ := Unix_not_zero (decimal S) (ParseInt F).1 (Int.ofNat_nonneg _) hsec
      hnano'.1 hnano'.2
    rw [hUnix]
    exact ⟨hz1, hz2, Or.inr ⟨pre, S, F, hfirst, hSd, hFd, Int.ofNat_nonneg _, hfit, rfl⟩⟩

/-- C13 at the scenario input: the timestamp is `Unix(1700000000, 1)` and not zero. -/
theorem timestamp_never_zero_witness :
    (Unix 1700000000 1).IsZero = false ∧ Unix 1700000000 1 ≠ {} ∧
    ((FindString timestampRe scenarioInput = [] ∧ Unix 1700000000 1 = sampleNow) ∨
     (∃ pre S F, FirstTimestampToken scenarioInput pre (S ++ 46 :: F) ∧
        (∀ x ∈ S, isDigit x = true) ∧ (∀ x ∈ F, isDigit x = true) ∧
        (0 : Int) ≤ (decimal S : Int) ∧ decimal S < 2 ^ 63 ∧
        Unix 1700000000 1 = Unix (decimal S) (ParseInt F).1)) :=
  timestamp_never_zero refScanner sampleNow scenarioInput _ (by rfl) scenario_parse

/-- When the pattern matches, `parseTimestamp` does not read the clock. -/
theorem parseTimestamp_clock (now1 now2 : Time) (p : Parser)
    (hne : FindString timestampRe p.buff ≠ []) :
    p.parseTimestamp now1 = p.parseTimestamp now2 := by
  simp only [Parser.parseTimestamp]
  rw [if_neg hne, if_neg hne]

/-- A text with a substring of the timestamp shape makes `FindString` return a match. -/
theorem findString_timestamp_ne_nil (s : Bytes)
    (h : ∃ pre t post, s = pre ++ t ++ post ∧ TimestampShape t) :
    FindString timestampRe s ≠ [] := by
  have hsome := findAux_timestamp_isSome s h
  cases hf : findAux timestampRe (runes s) with
  | none => rw [hf] at hsome; simp at hsome
  | some m =>
    obtain ⟨pre, S, c, F, post, -, hmf, hS, -⟩ := findString_timestamp_some s m hf
    simp only [FindString, hf, hmf]
    intro hnil
    have := congrArg List.length hnil
    simp only [List.length_append, List.length_nil] at this
    omega

/-- C14. For every buffer with a substring of the timestamp shape, `Parse` on a fresh
parser ends the same way whatever the clock reading: the same panic, or the same result
with the same parser left, hence the same `Dump`. -/
theorem parse_clock_independent (sc : Scanner) (now1 now2 : Time) (buff : Bytes)
    (htok : ∃ pre t post, buff = pre ++ t ++ post ∧ TimestampShape t) :
    (NewParser buff).Parse sc now1 = (NewParser buff).Parse sc now2 ∧
    ∀ e1 p1 e2 p2, (NewParser buff).Parse sc now1 = .ret (e1, p1) →
      (NewParser buff).Parse sc now2 = .ret (e2, p2) → e1 = e2 ∧ p1.Dump = p2.Dump := by
  have hne := findString_timestamp_ne_nil buff htok
  have hts : (NewParser buff).parseTimestamp now1 = (NewParser buff).parseTimestamp now2 :=
    parseTimestamp_clock now1 now2 _ hne
  have hhdr : (NewParser buff).parseHeader sc now1 = (NewParser buff).parseHeader sc now2 := by
    rcases hpri : sc.ParsePriority buff 0 buff.length with ⟨⟨pri, _ | se⟩, c1⟩
    · rcases hver : sc.ParseVersion buff c1 buff.length with ⟨⟨ver, _ | se⟩, c2⟩
      · rw [parseHeader_scanned sc now1 (NewParser buff) pri c1 ver c2 hpri hver,
          parseHeader_scanned sc now2 (NewParser buff) pri c1 ver c2 hpri hver]
        have hb : (NewParser buff).buff = buff := rfl
        rw [hb, hts]
      · rw [parseHeader_version_err sc now1 (NewParser buff) pri c1 ver se c2 hpri hver,
          parseHeader_version_err sc now2 (NewParser buff) pri c1 ver se c2 hpri hver]
    · rw [parseHeader_priority_err sc now1 (NewParser buff) pri se c1 hpri,
        parseHeader_priority_err sc now2 (NewParser buff) pri se c1 hpri]
  have hparse : (NewParser buff).Parse sc now1 = (NewParser buff).Parse sc now2 := by
    simp only [Parser.Parse, hhdr]
  refine ⟨hparse, ?_⟩
  intro e1 p1 e2 p2 h1 h2
  rw [hparse, h2] at h1
  simp only [Result.ret.injEq, Prod.mk.injEq] at h1
  exact ⟨h1.1.symm, by rw [h1.2]⟩

set_option maxRecDepth 100000 in
theorem scenario_has_timestamp :
    ∃ pre t post, scenarioInput = pre ++ t ++ post ∧ TimestampShape t :=
  ⟨str "<134>1 ", str "1700000000.000001",
    str " 3fa85f64-5717-4562-b3fc-2c963f66afa6_sensor01 status_report rest of payload", by rfl,
    str "1700000000", str "000001", by rfl, by decide, by decide, by decide, by decide⟩

/-- C14 at the scenario input, parsed at two instants. -/
theorem parse_clock_independent_witness :
    (NewParser scenarioInput).Parse refScanner sampleNow
        = (NewParser scenarioInput).Parse refScanner (Unix 0 0) ∧
    ∀ e1 p1 e2 p2, (NewParser scenarioInput).Parse refScanner sampleNow = .ret (e1, p1) →
      (NewParser scenarioInput).Parse refScanner (Unix 0 0) = .ret (e2, p2) →
      e1 = e2 ∧ p1.Dump = p2.Dump :=
  parse_clock_independent refScanner sampleNow (Unix 0 0) scenarioInput scenario_has_timestamp

/-- When the first match of the pattern is itself a string of digits, a dot and a string
of digits, and the seconds fit `int64`, `parseTimestamp` returns no error and `Unix` of the
seconds and of the value of the digits after the dot, or of `2^63 - 1` when that value is
out of range: the error of the second `ParseInt` is dropped. -/
theorem parseTimestamp_of_dotted_match_saturating (now : Time) (p : Parser) (S F : Bytes)
    (hm : FindString timestampRe p.buff = S ++ 46 :: F)
    (hS : ∀ x ∈ S, isDigit x = true) (hF : ∀ x ∈ F, isDigit x = true)
    (hSne : S ≠ []) (hFne : F ≠ []) (hSfit : decimal S < 2 ^ 63) :
    p.parseTimestamp now =
      .ret (Unix (decimal S) (if decimal F < 2 ^ 63 then (decimal F : Int) else 2 ^ 63 - 1), none) := by
  have hsplit : Split (S ++ 46 :: F) 46 = [S, F] := by
    rw [Split, splitAux_one_sep 46 S [] F (fun x hx => isDigit_ne_dot x (hS x hx))
      (fun x hx => isDigit_ne_dot x (hF x hx))]
    simp
  simp only [Parser.parseTimestamp, hm, hsplit]
  rw [if_neg (by simp)]
  simp only [List.getElem?_cons_zero, List.getElem?_cons_succ]
  rw [ParseInt_digits_spec S hSne hS, if_pos hSfit]
  simp only
  rw [ParseInt_digits_spec F hFne hF]
  split_ifs <;> rfl

set_option maxRecDepth 100000 in
theorem numbersThenLongFraction_first :
    FirstTimestampToken numbersThenLongFraction (str "<134>1 id=12345678901 1234567 ts=")
      (str "1700000000" ++ 46 :: str "99999999999999999999") := by
  refine ⟨⟨[], by rfl⟩, ⟨str "1700000000", str "99999999999999999999", by rfl, by decide,
    by decide, by decide, by decide⟩, ?_⟩
  intro pre' t' post' h ht
  have := timestampShape_after numbersThenLongFraction 32 43 (by omega) (by rfl)
    (fun x hx => by
      have h32 : numbersThenLongFraction[32]? = some 61 := by rfl
      rw [h32] at hx
      simp only [Option.some.injEq] at hx
      rw [← hx]; rfl) pre' t' post' h ht
  have hlen : (str "<134>1 id=12345678901 1234567 ts=").length = 33 := by rfl
  omega

set_option maxRecDepth 100000 in
/-- C17: the code at `<134>1 id=12345678901 1234567 ts=1700000000.99999999999999999999`.
The first substring of ten or more digits, a dot and six or more digits is
`1700000000.99999999999999999999`: its seconds fit `int64` and its fraction is beyond
`2^63 - 1`. The dot of the pattern is not escaped, so the first match is
`12345678901 1234567`, and timestamp extraction fails with the syntax error of `ParseInt`
instead of returning `Unix(1700000000, 2^63 - 1)`; on the token alone
(`<134>1 1700000000.99999999999999999999 up`) it does return that value. -/
theorem long_fraction_token_preempted :
    FirstTimestampToken numbersThenLongFraction (str "<134>1 id=12345678901 1234567 ts=")
      (str "1700000000" ++ 46 :: str "99999999999999999999") ∧
    decimal (str "1700000000") < 2 ^ 63 ∧ 2 ^ 63 - 1 < decimal (str "99999999999999999999") ∧
    FindString timestampRe numbersThenLongFraction = str "12345678901 1234567" ∧
    (NewParser numbersThenLongFraction).parseTimestamp sampleNow =
      .ret ({}, some (.numError "ParseInt" (str "12345678901 1234567") .ErrSyntax)) ∧
    (NewParser numbersThenLongFraction).parseTimestamp sampleNow ≠
      .ret (Unix 1700000000 (2 ^ 63 - 1), none) ∧
    (NewParser longFraction).parseTimestamp sampleNow =
      .ret (Unix 1700000000 (2 ^ 63 - 1), none) := by
  refine ⟨numbersThenLongFraction_first, by decide, by decide, by rfl, by rfl, ?_, by rfl⟩
  rw [show (NewParser numbersThenLongFraction).parseTimestamp sampleNow =
      .ret ({}, some (.numError "ParseInt" (str "12345678901 1234567") .ErrSyntax)) by rfl]
  simp

end Meraki
